import Mathlib

/-!
Verification of the `export_data.py` exporter: a script that filters a list
of candidate picks and a store of tracked picks down to bin-backed,
direction-aligned entries, sanitizes them to a fixed public field set,
computes portfolio aggregates, and writes two JSON artifacts.

The embedding works at the JSON-value level: Python dicts, lists, strings
and numbers are a single inductive `JVal`; Python numbers (ints and floats)
are modelled as exact rationals; Python exceptions (KeyError, TypeError,
AttributeError, ValueError) are modelled with `Except String`, where only
ok-versus-error is significant, not the message text.
-/

/-- A JSON-like runtime value: the subset of Python values flowing through
`export_data.py` (dicts, lists, strings, numbers, booleans, None). -/
inductive JVal where
  | null
  | bool (b : Bool)
  | num (q : ℚ)
  | str (s : String)
  | arr (elems : List JVal)
  | obj (fields : List (String × JVal))
deriving Repr

mutual

/-- Decidable equality of values (Python `==` on JSON data is structural
equality for these value shapes). -/
def jdecEq : (a b : JVal) → Decidable (a = b)
  | .null, .null => isTrue rfl
  | .bool a, .bool b =>
    match decEq a b with
    | isTrue h => isTrue (congrArg JVal.bool h)
    | isFalse h => isFalse (fun hh => h (JVal.noConfusion hh id))
  | .num a, .num b =>
    match decEq a b with
    | isTrue h => isTrue (congrArg JVal.num h)
    | isFalse h => isFalse (fun hh => h (JVal.noConfusion hh id))
  | .str a, .str b =>
    match decEq a b with
    | isTrue h => isTrue (congrArg JVal.str h)
    | isFalse h => isFalse (fun hh => h (JVal.noConfusion hh id))
  | .arr xs, .arr ys =>
    match jdecEqL xs ys with
    | isTrue h => isTrue (congrArg JVal.arr h)
    | isFalse h => isFalse (fun hh => h (JVal.noConfusion hh id))
  | .obj xs, .obj ys =>
    match jdecEqKV xs ys with
    | isTrue h => isTrue (congrArg JVal.obj h)
    | isFalse h => isFalse (fun hh => h (JVal.noConfusion hh id))
  | .null, .bool _ | .null, .num _ | .null, .str _ | .null, .arr _ | .null, .obj _
  | .bool _, .null | .bool _, .num _ | .bool _, .str _ | .bool _, .arr _ | .bool _, .obj _
  | .num _, .null | .num _, .bool _ | .num _, .str _ | .num _, .arr _ | .num _, .obj _
  | .str _, .null | .str _, .bool _ | .str _, .num _ | .str _, .arr _ | .str _, .obj _
  | .arr _, .null | .arr _, .bool _ | .arr _, .num _ | .arr _, .str _ | .arr _, .obj _
  | .obj _, .null | .obj _, .bool _ | .obj _, .num _ | .obj _, .str _ | .obj _, .arr _ =>
    isFalse (fun hh => JVal.noConfusion hh)

/-- Decidable equality of value lists. -/
def jdecEqL : (xs ys : List JVal) → Decidable (xs = ys)
  | [], [] => isTrue rfl
  | [], _ :: _ => isFalse (fun hh => List.noConfusion hh)
  | _ :: _, [] => isFalse (fun hh => List.noConfusion hh)
  | x :: xs, y :: ys =>
    match jdecEq x y with
    | isFalse h => isFalse (fun hh => h (List.noConfusion hh (fun h1 _ => h1)))
    | isTrue h1 =>
      match jdecEqL xs ys with
      | isTrue h2 => isTrue (h1 ▸ h2 ▸ rfl)
      | isFalse h2 => isFalse (fun hh => h2 (List.noConfusion hh (fun _ h3 => h3)))

/-- Decidable equality of dict field lists. -/
def jdecEqKV : (xs ys : List (String × JVal)) → Decidable (xs = ys)
  | [], [] => isTrue rfl
  | [], _ :: _ => isFalse (fun hh => List.noConfusion hh)
  | _ :: _, [] => isFalse (fun hh => List.noConfusion hh)
  | (k1, v1) :: xs, (k2, v2) :: ys =>
    match decEq k1 k2 with
    | isFalse h => isFalse (fun hh => h (by cases hh; rfl))
    | isTrue hk =>
      match jdecEq v1 v2 with
      | isFalse h => isFalse (fun hh => h (by cases hh; rfl))
      | isTrue hv =>
        match jdecEqKV xs ys with
        | isTrue ht => isTrue (hk ▸ hv ▸ ht ▸ rfl)
        | isFalse h => isFalse (fun hh => h (by cases hh; rfl))

end

instance : DecidableEq JVal := jdecEq

/-- Python truthiness of a value (`if signals_json`, `and r["pnl"]`, `detail or ""`). -/
def pyTruthy : JVal → Bool
  | .null => false
  | .bool b => b
  | .num q => q != 0
  | .str s => s != ""
  | .arr xs => !xs.isEmpty
  | .obj kvs => !kvs.isEmpty

/-- Lookup in a dict's field list (Python dicts have unique keys). -/
def dictGet (kvs : List (String × JVal)) (k : String) : Option JVal :=
  (kvs.find? (fun kv => kv.1 = k)).map (fun kv => kv.2)

/-- Total dict read used in specification predicates: the value at `k`, or
`null` when the key is absent or the value is not a dict. -/
def mGet (v : JVal) (k : String) : JVal :=
  match v with
  | .obj kvs => (dictGet kvs k).getD .null
  | _ => .null

/-- Python `v.get(k)`: `None` when absent, AttributeError when `v` is not a dict. -/
def pyGet (v : JVal) (k : String) : Except String JVal :=
  match v with
  | .obj kvs => .ok ((dictGet kvs k).getD .null)
  | _ => .error "AttributeError"

/-- Python `v.get(k, d)` with an explicit default. -/
def pyGetD (v : JVal) (k : String) (d : JVal) : Except String JVal :=
  match v with
  | .obj kvs => .ok ((dictGet kvs k).getD d)
  | _ => .error "AttributeError"

/-- Python `v[k]`: KeyError when absent, TypeError when `v` is not a dict. -/
def pyIndex (v : JVal) (k : String) : Except String JVal :=
  match v with
  | .obj kvs =>
    match dictGet kvs k with
    | some x => .ok x
    | none => .error "KeyError"
  | _ => .error "TypeError"

/-- Python `for s in v`: lists yield elements, dicts yield their keys,
strings yield one-character strings, other values raise TypeError. -/
def pyIter : JVal → Except String (List JVal)
  | .arr xs => .ok xs
  | .obj kvs => .ok (kvs.map (fun kv => .str kv.1))
  | .str s => .ok (s.toList.map (fun c => .str (String.singleton c)))
  | _ => .error "TypeError"

/-- `_get_aligned_bin_signal(signals, direction)`: the first signal whose
`source` is `"bin"` and whose `direction` equals the pick's direction,
scanning in order; `none` when the loop finishes without a match. -/
def getAlignedBinSignal : List JVal → JVal → Except String (Option JVal)
  | [], _ => .ok none
  | s :: rest, dir => do
    let src ← pyGet s "source"
    if src = .str "bin" then
      let d ← pyGet s "direction"
      if d = dir then .ok (some s)
      else getAlignedBinSignal rest dir
    else getAlignedBinSignal rest dir

/-! ### Kernel-computable rational arithmetic

The library's `Rat.add`, `Rat.mul` and `Rat.inv` are `@[irreducible]`, so
the kernel cannot evaluate them on concrete inputs.  The pipeline uses the
following equivalents built directly on `Rat.normalize` and `Rat.divInt`
(the equivalence proofs are `qadd_eq` and friends below). -/

/-- Rational addition. -/
def qadd (a b : ℚ) : ℚ :=
  Rat.normalize (a.num * b.den + b.num * a.den) (a.den * b.den)
    (Nat.mul_ne_zero a.den_nz b.den_nz)

/-- Rational subtraction. -/
def qsub (a b : ℚ) : ℚ :=
  Rat.normalize (a.num * b.den - b.num * a.den) (a.den * b.den)
    (Nat.mul_ne_zero a.den_nz b.den_nz)

/-- Rational multiplication. -/
def qmul (a b : ℚ) : ℚ :=
  Rat.normalize (a.num * b.num) (a.den * b.den)
    (Nat.mul_ne_zero a.den_nz b.den_nz)

/-- Rational division (zero when the divisor is zero, as in the library). -/
def qdiv (a b : ℚ) : ℚ := Rat.divInt (a.num * b.den) (a.den * b.num)

/-- Rational natural power. -/
def qpow (a : ℚ) : ℕ → ℚ
  | 0 => 1
  | n + 1 => qmul (qpow a n) a

/-- A character matched by the regex class `[\d,]` (`\d` taken as the ASCII
digits appearing in the data). -/
def isDC (c : Char) : Bool := c.isDigit || c = ','

/-- Leftmost match of the regex `n=([\d,]+)`: scan for an occurrence of
`n=` followed by at least one digit-or-comma character and return the
maximal (greedy) such run. -/
def findN : List Char → Option (List Char)
  | [] => none
  | c :: rest =>
    if c = 'n' then
      match rest with
      | c2 :: rest2 =>
        if c2 = '=' then
          let run := rest2.takeWhile isDC
          if run.isEmpty then findN rest else some run
        else findN rest
      | [] => none
    else findN rest

/-- Numeric value of a list of ASCII digits. -/
def natOfDigits (ds : List Char) : ℕ :=
  ds.foldl (fun a c => a * 10 + (c.toNat - 48)) 0

/-- `_parse_sample_size(detail)`: regex-extract `n=([\d,]+)` from
`detail or ""`, strip commas and convert to an integer.  `int("")` on a
comma-only match raises ValueError; `re.search` on a truthy non-string
raises TypeError. -/
def parseSampleSize (detail : JVal) : Except String (Option ℕ) :=
  let d := if pyTruthy detail then detail else .str ""
  match d with
  | .str s =>
    match findN s.toList with
    | none => .ok none
    | some run =>
      let ds := run.filter (fun c => c ≠ ',')
      if ds.isEmpty then .error "ValueError" else .ok (some (natOfDigits ds))
  | _ => .error "TypeError"

/-- The derived `bin_n` field: a number, or `null` when no sample size parsed. -/
def binNJ : Option ℕ → JVal
  | some n => .num n
  | none => .null

/-- `sanitize_pick(pick)`: project a pick down to the fixed public field set,
pulling `bin_edge`, `bin_win_rate` and `bin_n` from the aligned bin signal.
`bin_sig["edge"]` on a pick with no aligned bin signal raises TypeError
(`None` is not subscriptable), as do missing projection keys (KeyError). -/
def sanitizePick (pick : JVal) : Except String JVal := do
  let signalsV ← pyGetD pick "signals" (.arr [])
  let dir ← pyIndex pick "direction"
  let sigs ← pyIter signalsV
  let binSigO ← getAlignedBinSignal sigs dir
  match binSigO with
  | none => .error "TypeError"
  | some binSig => do
    let marketId ← pyIndex pick "market_id"
    let question ← pyIndex pick "question"
    let edge ← pyIndex binSig "edge"
    let winRate ← pyGet binSig "win_rate"
    let detail ← pyGet binSig "detail"
    let binN ← parseSampleSize detail
    let marketImplied ← pyIndex pick "market_implied"
    let nSignals ← pyIndex pick "n_signals"
    let score ← pyIndex pick "score"
    let hours ← pyIndex pick "hours_to_resolve"
    .ok (.obj [("market_id", marketId), ("question", question), ("direction", dir),
      ("bin_edge", edge), ("bin_win_rate", winRate), ("bin_n", binNJ binN),
      ("market_implied", marketImplied), ("n_signals", nSignals),
      ("score", score), ("hours_to_resolve", hours)])

/-! ### A JSON parser modelling Python `json.loads` on the store's serialized
signal lists.  Parse failure (`none`) models `json.JSONDecodeError`. -/

/-- JSON whitespace skip. -/
def skipWs (cs : List Char) : List Char :=
  cs.dropWhile (fun c => c = ' ' ∨ c = '\t' ∨ c = '\n' ∨ c = '\r')

/-- Opening curly bracket character. -/
def braceL : Char := Char.ofNat 123

/-- Closing curly bracket character. -/
def braceR : Char := Char.ofNat 125

/-- Decode one string-escape character; `none` for an invalid escape. -/
def unescape (c : Char) : Option Char :=
  if c = '"' ∨ c = '\\' ∨ c = '/' then some c
  else if c = 'n' then some '\n'
  else if c = 't' then some '\t'
  else if c = 'r' then some '\r'
  else if c = 'b' then some (Char.ofNat 8)
  else if c = 'f' then some (Char.ofNat 12)
  else none

/-- Hex digit value. -/
def hexVal (c : Char) : Option ℕ :=
  if c.isDigit then some (c.toNat - 48)
  else if 'a' ≤ c ∧ c ≤ 'f' then some (c.toNat - 87)
  else if 'A' ≤ c ∧ c ≤ 'F' then some (c.toNat - 55)
  else none

/-- Parse the body of a JSON string after the opening quote. -/
def parseStrBody (acc : List Char) : List Char → Option (String × List Char)
  | [] => none
  | c :: rest =>
    if c = '"' then some (String.mk acc.reverse, rest)
    else if c = '\\' then
      match rest with
      | [] => none
      | e :: r2 =>
        if e = 'u' then
          match r2 with
          | h1 :: h2 :: h3 :: h4 :: r3 =>
            match hexVal h1, hexVal h2, hexVal h3, hexVal h4 with
            | some a, some b, some cc, some dd =>
              parseStrBody (Char.ofNat (((a * 16 + b) * 16 + cc) * 16 + dd) :: acc) r3
            | _, _, _, _ => none
          | _ => none
        else
          match unescape e with
          | some u => parseStrBody (u :: acc) r2
          | none => none
    else parseStrBody (c :: acc) rest

/-- Apply an optional leading minus sign. -/
def signApply (neg : Bool) (v : ℚ) : ℚ := if neg then -v else v

/-- Parse an optional exponent part and finish a number. -/
def parseExpPart (v : ℚ) (neg : Bool) (cs : List Char) : Option (ℚ × List Char) :=
  match cs with
  | c :: r =>
    if c = 'e' ∨ c = 'E' then
      let (esign, r2) :=
        match r with
        | '-' :: t => (true, t)
        | '+' :: t => (false, t)
        | _ => (false, r)
      let es := r2.takeWhile Char.isDigit
      if es.isEmpty then none
      else
        let e := natOfDigits es
        some (signApply neg (if esign then qdiv v (qpow 10 e) else qmul v (qpow 10 e)),
          r2.dropWhile Char.isDigit)
    else some (signApply neg v, cs)
  | [] => some (signApply neg v, [])

/-- Parse a JSON number. -/
def parseNumber (cs : List Char) : Option (ℚ × List Char) :=
  let (neg, cs1) :=
    match cs with
    | '-' :: t => (true, t)
    | _ => (false, cs)
  let ds := cs1.takeWhile Char.isDigit
  if ds.isEmpty then none
  else
    let ip : ℚ := (natOfDigits ds : ℕ)
    let rest1 := cs1.dropWhile Char.isDigit
    match rest1 with
    | '.' :: r2 =>
      let fs := r2.takeWhile Char.isDigit
      if fs.isEmpty then none
      else parseExpPart (qadd ip (qdiv (natOfDigits fs : ℚ) (qpow 10 fs.length))) neg
        (r2.dropWhile Char.isDigit)
    | _ => parseExpPart ip neg rest1

mutual

/-- Fuelled recursive-descent parse of one JSON value. -/
def parseV : ℕ → List Char → Option (JVal × List Char)
  | 0, _ => none
  | fuel + 1, cs =>
    match skipWs cs with
    | 'n' :: 'u' :: 'l' :: 'l' :: rest => some (.null, rest)
    | 't' :: 'r' :: 'u' :: 'e' :: rest => some (.bool true, rest)
    | 'f' :: 'a' :: 'l' :: 's' :: 'e' :: rest => some (.bool false, rest)
    | '"' :: rest => (parseStrBody [] rest).map (fun sr => (.str sr.1, sr.2))
    | '[' :: rest =>
      match skipWs rest with
      | ']' :: r2 => some (.arr [], r2)
      | r2 => parseItems fuel r2 []
    | c :: rest =>
      if c = braceL then
        match skipWs rest with
        | c2 :: r2 =>
          if c2 = braceR then some (.obj [], r2)
          else parseFields fuel (c2 :: r2) []
        | [] => none
      else (parseNumber (c :: rest)).map (fun qr => (.num qr.1, qr.2))
    | [] => none

/-- Fuelled parse of the remaining comma-separated items of a JSON array. -/
def parseItems : ℕ → List Char → List JVal → Option (JVal × List Char)
  | 0, _, _ => none
  | fuel + 1, cs, acc =>
    match parseV fuel cs with
    | none => none
    | some (v, r) =>
      match skipWs r with
      | ',' :: r2 => parseItems fuel r2 (v :: acc)
      | ']' :: r2 => some (.arr (v :: acc).reverse, r2)
      | _ => none

/-- Fuelled parse of the remaining fields of a JSON object. -/
def parseFields : ℕ → List Char → List (String × JVal) → Option (JVal × List Char)
  | 0, _, _ => none
  | fuel + 1, cs, acc =>
    match skipWs cs with
    | '"' :: rest =>
      match parseStrBody [] rest with
      | none => none
      | some (k, r1) =>
        match skipWs r1 with
        | ':' :: r2 =>
          match parseV fuel r2 with
          | none => none
          | some (v, r3) =>
            match skipWs r3 with
            | ',' :: r4 => parseFields fuel r4 ((k, v) :: acc)
            | c :: r4 =>
              if c = braceR then some (.obj ((k, v) :: acc).reverse, r4) else none
            | [] => none
        | _ => none
    | _ => none

end

/-- `json.loads(s)`: parse a complete JSON document; `none` models
`json.JSONDecodeError`. -/
def jsonLoads (s : String) : Option JVal :=
  match parseV (2 * s.length + 8) s.toList with
  | some (v, rest) => if skipWs rest = [] then some v else none
  | none => none

/-- `_get_aligned_bin_from_json(signals_json, direction)`: the `try` block
covers only `json.loads`, whose `JSONDecodeError`/`TypeError` yield `None`;
iterating a non-list parse result raises outside the `try`. -/
def getAlignedBinFromJson (sj dir : JVal) : Except String (Option JVal) :=
  let parsed : Option JVal :=
    if pyTruthy sj then
      match sj with
      | .str s => jsonLoads s
      | _ => none
    else some (.arr [])
  match parsed with
  | none => .ok none
  | some v => do
    let sigs ← pyIter v
    getAlignedBinSignal sigs dir

/-! ### The picks exporter -/

/-- The publication test of `export_picks`: the aligned bin signal of one
pick record, `_get_aligned_bin_signal(p.get("signals", []), p["direction"])`. -/
def alignOf (p : JVal) : Except String (Option JVal) := do
  let signalsV ← pyGetD p "signals" (.arr [])
  let dir ← pyIndex p "direction"
  let sigs ← pyIter signalsV
  getAlignedBinSignal sigs dir

/-- The list comprehension filtering picks to those with an aligned bin signal. -/
def selectAligned : List JVal → Except String (List JVal)
  | [] => .ok []
  | p :: ps => do
    let r ← alignOf p
    let rest ← selectAligned ps
    match r with
    | some _ => .ok (p :: rest)
    | none => .ok rest

/-- The sort key `p.get("hours_to_resolve", float("inf"))`: `none` is the
missing-key infinity.  A present non-numeric value is modelled as the
TypeError Python raises when such a key is compared against a number. -/
def hkeyE (p : JVal) : Except String (Option ℚ) :=
  match p with
  | .obj kvs =>
    match dictGet kvs "hours_to_resolve" with
    | none => .ok none
    | some (.num q) => .ok (some q)
    | some _ => .error "TypeError"
  | _ => .error "AttributeError"

/-- Ascending order on hours keys, with the missing-key infinity last. -/
def hkeyLE : Option ℚ → Option ℚ → Bool
  | some a, some b => a ≤ b
  | some _, none => true
  | none, some _ => false
  | none, none => true

/-- The sort relation of the picks sort, on key-decorated picks. -/
def hkeyRel (a b : Option ℚ × JVal) : Prop := hkeyLE a.1 b.1 = true

instance : DecidableRel hkeyRel := fun a b => instDecidableEqBool (hkeyLE a.1 b.1) true

instance : IsTotal (Option ℚ × JVal) hkeyRel :=
  ⟨by
    intro a b
    unfold hkeyRel
    rcases a.1 with _ | qa <;> rcases b.1 with _ | qb <;> simp [hkeyLE]
    exact le_total qa qb⟩

instance : IsTrans (Option ℚ × JVal) hkeyRel :=
  ⟨by
    intro a b c
    unfold hkeyRel
    rcases a.1 with _ | qa <;> rcases b.1 with _ | qb <;> rcases c.1 with _ | qc <;>
      simp [hkeyLE]
    exact le_trans⟩

/-- `aligned.sort(key=lambda p: p.get("hours_to_resolve", float("inf")))`:
a stable ascending sort on the hours key (Python's sort is stable, so any
stable sort gives the same list). -/
def sortByHours (l : List JVal) : Except String (List JVal) := do
  let keyed ← l.mapM (fun p => (hkeyE p).map (fun k => (k, p)))
  .ok ((keyed.insertionSort hkeyRel).map (fun kp => kp.2))

/-- `export_picks` up to the written value: `none` input models an absent
source file (which writes an empty list); otherwise filter to aligned
picks, sort by hours, and sanitize each. -/
def exportPicksOut (src : Option (List JVal)) : Except String (List JVal) :=
  match src with
  | none => .ok []
  | some picks => do
    let aligned ← selectAligned picks
    let sorted ← sortByHours aligned
    sorted.mapM sanitizePick

/-- Fuelled compact JSON serializer standing in for `json.dumps`. -/
def dumpsF : ℕ → JVal → String
  | 0, _ => ""
  | _ + 1, .null => "null"
  | _ + 1, .bool b => if b then "true" else "false"
  | _ + 1, .num q => toString q
  | _ + 1, .str s => "\"" ++ s ++ "\""
  | fuel + 1, .arr xs => "[" ++ String.intercalate ", " (xs.map (dumpsF fuel)) ++ "]"
  | fuel + 1, .obj kvs =>
    String.singleton braceL ++
      String.intercalate ", " (kvs.map (fun kv => "\"" ++ kv.1 ++ "\": " ++ dumpsF fuel kv.2)) ++
      String.singleton braceR

mutual

/-- Computable size of a value (an upper bound on nesting depth). -/
def jsize : JVal → ℕ
  | .null | .bool _ | .num _ | .str _ => 1
  | .arr xs => 1 + jsizeL xs
  | .obj kvs => 1 + jsizeKV kvs

/-- Computable size of a value list. -/
def jsizeL : List JVal → ℕ
  | [] => 0
  | x :: xs => jsize x + 1 + jsizeL xs

/-- Computable size of a field list. -/
def jsizeKV : List (String × JVal) → ℕ
  | [] => 0
  | kv :: kvs => jsize kv.2 + 1 + jsizeKV kvs

end

/-- Serialize a value with ample fuel. -/
def dumpsJ (v : JVal) : String := dumpsF (jsize v + 1) v

/-- `export_picks` at the level of the text written to `picks.json`: an
absent source file writes the literal text `[]`. -/
def exportPicksText (src : Option (List JVal)) : Except String String :=
  match src with
  | none => .ok "[]"
  | some picks => (exportPicksOut (some picks)).map (fun l => dumpsJ (.arr l))

/-! ### The portfolio exporter -/

/-- One row of the `tracked_picks` table, as returned by the fixed SELECT. -/
structure TrackedRow where
  market_id : JVal
  question : JVal
  direction : JVal
  order_price : JVal
  mid_price : JVal
  first_seen : JVal
  status : JVal
  pnl : JVal
  resolved_at : JVal
  signals_json : JVal
deriving Repr, DecidableEq

/-- An aligned row: the row dict augmented with `bin_edge` and `bin_n`
(and `signals_json` deleted). -/
structure ARow where
  row : TrackedRow
  bin_edge : JVal
  bin_n : Option ℕ
deriving Repr, DecidableEq

/-- The aligned-row loop of `export_portfolio`: rows whose `signals_json`
yields an aligned bin signal, augmented with that signal's edge and
sample size. -/
def alignedRowsE : List TrackedRow → Except String (List ARow)
  | [] => .ok []
  | r :: rs => do
    let bo ← getAlignedBinFromJson r.signals_json r.direction
    match bo with
    | none => alignedRowsE rs
    | some bs => do
      let edge ← pyIndex bs "edge"
      let detail ← pyGet bs "detail"
      let n ← parseSampleSize detail
      let rest ← alignedRowsE rs
      .ok (⟨r, edge, n⟩ :: rest)

/-- Count of aligned rows with a given status string. -/
def countStatus (l : List ARow) (s : String) : ℕ :=
  (l.filter (fun a => a.row.status = .str s)).length

/-- `sum(r["pnl"] for r in aligned_rows if r["status"] in ("won", "lost") and r["pnl"])`:
adding a non-numeric pnl raises TypeError. -/
def sumPnl : List ARow → Except String ℚ
  | [] => .ok 0
  | a :: rest => do
    let acc ← sumPnl rest
    if (a.row.status = .str "won" ∨ a.row.status = .str "lost") ∧ pyTruthy a.row.pnl then
      match a.row.pnl with
      | .num q => .ok (qadd q acc)
      | .bool b => .ok (qadd (if b then 1 else 0) acc)
      | _ => .error "TypeError"
    else .ok acc

/-- `sum(bin_edges)`: adding a non-numeric edge raises TypeError. -/
def sumEdges : List ARow → Except String ℚ
  | [] => .ok 0
  | a :: rest => do
    let acc ← sumEdges rest
    match a.bin_edge with
    | .num q => .ok (qadd q acc)
    | .bool b => .ok (qadd (if b then 1 else 0) acc)
    | _ => .error "TypeError"

/-- Round half to even: the integer nearest `x`, ties to the even integer. -/
def rhe (x : ℚ) : ℤ :=
  let f := Int.fdiv x.num x.den
  let r := qsub x (f : ℚ)
  if r < qdiv 1 2 then f
  else if qdiv 1 2 < r then f + 1
  else if f % 2 = 0 then f else f + 1

/-- Python `round(x, n)`, modelled over exact rationals (round half to even
at `n` decimal places). -/
def pyRound (x : ℚ) (n : ℕ) : ℚ := qdiv ((rhe (qmul x (qpow 10 n)) : ℤ) : ℚ) (qpow 10 n)

/-- The `pending_picks` projection of an aligned row. -/
def projPending (a : ARow) : JVal :=
  .obj [("market_id", a.row.market_id), ("question", a.row.question),
    ("direction", a.row.direction), ("order_price", a.row.order_price),
    ("mid_price", a.row.mid_price), ("first_seen", a.row.first_seen),
    ("bin_edge", a.bin_edge), ("bin_n", binNJ a.bin_n)]

/-- The `recent_resolutions` projection of an aligned row. -/
def projResolution (a : ARow) : JVal :=
  .obj [("market_id", a.row.market_id), ("question", a.row.question),
    ("direction", a.row.direction), ("status", a.row.status),
    ("pnl", a.row.pnl), ("resolved_at", a.row.resolved_at),
    ("bin_edge", a.bin_edge), ("bin_n", binNJ a.bin_n)]

/-- The resolution sort key `r["resolved_at"] or ""`.  A truthy non-string
value is modelled as the TypeError Python raises when such a key is
compared against a string. -/
def resKeyE (a : ARow) : Except String String :=
  if pyTruthy a.row.resolved_at then
    match a.row.resolved_at with
    | .str s => .ok s
    | _ => .error "TypeError"
  else .ok ""

/-- Lexicographic order on character lists (Python string comparison). -/
def charsLE : List Char → List Char → Bool
  | [], _ => true
  | _ :: _, [] => false
  | a :: as, b :: bs => if a < b then true else if b < a then false else charsLE as bs

/-- Lexicographic order on strings. -/
def strLE (a b : String) : Bool := charsLE a.toList b.toList

/-- The sort relation of the resolutions sort, on key-decorated rows:
descending by key. -/
def resRel (a b : String × ARow) : Prop := strLE b.1 a.1 = true

instance : DecidableRel resRel := fun a b => instDecidableEqBool (strLE b.1 a.1) true

/-- `charsLE` is total. -/
theorem charsLE_total : ∀ as bs : List Char, charsLE as bs = true ∨ charsLE bs as = true := by
  intro as
  induction as with
  | nil => intro bs; exact Or.inl rfl
  | cons a as ih =>
    intro bs
    cases bs with
    | nil => exact Or.inr rfl
    | cons b bs =>
      by_cases hab : a < b
      · exact Or.inl (by simp [charsLE, hab])
      · by_cases hba : b < a
        · have : ¬ a < b := hab
          exact Or.inr (by simp [charsLE, hba])
        · rcases ih bs with h | h
          · exact Or.inl (by simp [charsLE, hab, hba, h])
          · exact Or.inr (by simp [charsLE, hab, hba, h])

/-- `charsLE` is transitive. -/
theorem charsLE_trans : ∀ as bs cs : List Char,
    charsLE as bs = true → charsLE bs cs = true → charsLE as cs = true := by
  intro as
  induction as with
  | nil => intro bs cs _ _; rfl
  | cons a as ih =>
    intro bs cs h1 h2
    cases bs with
    | nil => simp [charsLE] at h1
    | cons b bs =>
      cases cs with
      | nil => simp [charsLE] at h2
      | cons c cs =>
        simp only [charsLE] at h1 h2 ⊢
        by_cases hab : a < b
        · have hac : a < c := by
            by_cases hbc : b < c
            · exact lt_trans hab hbc
            · by_cases hcb : c < b
              · simp [hbc, hcb] at h2
              · have : b = c := le_antisymm (not_lt.1 hcb) (not_lt.1 hbc)
                exact this ▸ hab
          simp [hac]
        · by_cases hba : b < a
          · simp [hab, hba] at h1
          · have hab2 : a = b := le_antisymm (not_lt.1 hba) (not_lt.1 hab)
            subst hab2
            simp only [lt_irrefl, if_false] at h1
            by_cases hac : a < c
            · simp [hac]
            · by_cases hca : c < a
              · simp [hac, hca] at h2
              · simp only [hac, hca, if_false] at h2 ⊢
                exact ih bs cs h1 h2

instance : IsTotal (String × ARow) resRel :=
  ⟨fun a b => (charsLE_total b.1.toList a.1.toList).imp id id⟩

instance : IsTrans (String × ARow) resRel :=
  ⟨fun a b c h1 h2 => charsLE_trans c.1.toList b.1.toList a.1.toList h2 h1⟩

/-- `sorted(resolved, key=lambda r: r["resolved_at"] or "", reverse=True)`:
a stable descending sort on the resolution key (Python's sort is stable,
so any stable sort gives the same list). -/
def sortResolved (l : List ARow) : Except String (List ARow) := do
  let keyed ← l.mapM (fun a => (resKeyE a).map (fun k => (k, a)))
  .ok ((keyed.insertionSort resRel).map (fun ka => ka.2))

/-- The `summary` object of `portfolio.json`. -/
structure PortfolioSummary where
  pending : ℕ
  wins : ℕ
  losses : ℕ
  win_rate : ℚ
  total_pnl : ℚ
  avg_bin_edge : Option ℚ
deriving Repr, DecidableEq

/-- The `portfolio.json` document (the `updated_at` wall-clock timestamp is
outside the model). -/
structure Portfolio where
  summary : PortfolioSummary
  pending_picks : List JVal
  recent_resolutions : List JVal
deriving Repr, DecidableEq

/-- The zeroed portfolio written when the backing store is absent. -/
def emptyPortfolio : Portfolio :=
  ⟨⟨0, 0, 0, 0, 0, none⟩, [], []⟩

/-- `export_portfolio` up to the written value: `none` input models an
absent store. -/
def exportPortfolio (rows : Option (List TrackedRow)) : Except String Portfolio :=
  match rows with
  | none => .ok emptyPortfolio
  | some rs => do
    let aligned ← alignedRowsE rs
    let pending := countStatus aligned "pending"
    let wins := countStatus aligned "won"
    let losses := countStatus aligned "lost"
    let totalPnl ← sumPnl aligned
    let resolved := wins + losses
    let winRate : ℚ := if resolved > 0 then pyRound (qdiv (wins : ℚ) (resolved : ℚ)) 4 else 0
    let avgEdge ← do
      if aligned.isEmpty then pure (none : Option ℚ)
      else do
        let s ← sumEdges aligned
        pure (some (pyRound (qdiv s (aligned.length : ℚ)) 4))
    let resolvedRows :=
      aligned.filter (fun a => a.row.status = .str "won" ∨ a.row.status = .str "lost")
    let sortedRes ← sortResolved resolvedRows
    let recent := (sortedRes.take 50).map projResolution
    let pend := (aligned.filter (fun a => a.row.status = .str "pending")).map projPending
    .ok ⟨⟨pending, wins, losses, winRate, pyRound totalPnl 2, avgEdge⟩, pend, recent⟩

/-! ### Specification-side predicates (the claims' vocabulary) -/

/-- Whether a value is a dict. -/
def JVal.isObj : JVal → Bool
  | .obj _ => true
  | _ => false

/-- A signal whose `source` is `"bin"` and whose `direction` equals the
target direction. -/
def isAlignedSig (s dir : JVal) : Prop :=
  mGet s "source" = .str "bin" ∧ mGet s "direction" = dir

/-- A pick carrying at least one signal with source `"bin"` whose direction
matches the pick's own direction. -/
def hasAlignedBin (p : JVal) : Prop :=
  match mGet p "signals" with
  | .arr xs => ∃ s ∈ xs, isAlignedSig s (mGet p "direction")
  | _ => False

/-- The `hours_to_resolve` value of a record, when present and numeric. -/
def hkeyT (p : JVal) : Option ℚ :=
  match mGet p "hours_to_resolve" with
  | .num q => some q
  | _ => none

/-- Whether a record carries an `hours_to_resolve` field at all. -/
def hasHours (e : JVal) : Bool :=
  match e with
  | .obj kvs => (dictGet kvs "hours_to_resolve").isSome
  | _ => false

/-- Numeric reading of a value (Python arithmetic coerces booleans). -/
def qOf : JVal → ℚ
  | .num q => q
  | .bool b => if b then 1 else 0
  | _ => 0

/-- The `bin_edge` values of exactly the aligned (bin-backed,
direction-matching) subset of the tracked rows. -/
def alignedBinEdgesSpec (rows : List TrackedRow) : List JVal :=
  rows.filterMap (fun r =>
    match getAlignedBinFromJson r.signals_json r.direction with
    | .ok (some bs) => some (mGet bs "edge")
    | _ => none)

/-- A tracked row that passes the alignment filter. -/
def alignedRowSpec (r : TrackedRow) : Prop :=
  ∃ bs, getAlignedBinFromJson r.signals_json r.direction = .ok (some bs)

/-- The resolution ordering key of a `resolved_at` value: the string itself,
anything else (null and other falsy values) as the empty string. -/
def rKeyT (v : JVal) : String :=
  match v with
  | .str s => s
  | _ => ""

/-! ### Helper lemmas -/

/-- `qadd` is rational addition. -/
theorem qadd_eq (a b : ℚ) : qadd a b = a + b := (Rat.add_def a b).symm

/-- `qsub` is rational subtraction. -/
theorem qsub_eq (a b : ℚ) : qsub a b = a - b := (Rat.sub_def a b).symm

/-- `qmul` is rational multiplication. -/
theorem qmul_eq (a b : ℚ) : qmul a b = a * b := (Rat.mul_def a b).symm

/-- `qdiv` is rational division. -/
theorem qdiv_eq (a b : ℚ) : qdiv a b = a / b := (Rat.div_def' a b).symm

/-- `qpow` is rational natural power. -/
theorem qpow_eq (a : ℚ) : ∀ n : ℕ, qpow a n = a ^ n
  | 0 => by rw [qpow, pow_zero]
  | n + 1 => by rw [qpow, qmul_eq, qpow_eq a n, pow_succ]

/-- Decompose a successful `Except` bind. -/
theorem bind_ok_iff {α β : Type} (x : Except String α) (f : α → Except String β) (b : β) :
    (x >>= f = Except.ok b) ↔ ∃ a, x = Except.ok a ∧ f a = Except.ok b := by
  cases x <;> simp [Bind.bind, Except.bind]

/-- A successful `mapM` is an elementwise successful run. -/
theorem mapM_ok_iff {α β : Type} (f : α → Except String β) :
    ∀ (l : List α) (out : List β),
      (l.mapM f = Except.ok out ↔ List.Forall₂ (fun a b => f a = Except.ok b) l out)
  | [], out => by
    simp only [List.mapM_nil, pure, Except.pure]
    constructor
    · rintro h
      cases h
      exact List.Forall₂.nil
    · rintro h
      cases h
      rfl
  | x :: xs, out => by
    rw [List.mapM_cons]
    constructor
    · intro h
      rw [bind_ok_iff] at h
      obtain ⟨b, hb, h⟩ := h
      rw [bind_ok_iff] at h
      obtain ⟨bs, hbs, h⟩ := h
      simp only [pure, Except.pure] at h
      cases h
      exact List.Forall₂.cons hb ((mapM_ok_iff f xs bs).1 hbs)
    · intro h
      cases h with
      | cons hb hbs =>
        rw [bind_ok_iff]
        refine ⟨_, hb, ?_⟩
        rw [bind_ok_iff]
        exact ⟨_, (mapM_ok_iff f xs _).2 hbs, rfl⟩

/-- Members of the right list of a `Forall₂` come from members of the left. -/
theorem forall₂_mem_right {α β : Type} {Q : α → β → Prop} :
    ∀ {l : List α} {out : List β}, List.Forall₂ Q l out → ∀ b ∈ out, ∃ a ∈ l, Q a b := by
  intro l out h
  induction h with
  | nil => intro b hb; cases hb
  | cons hq _ ih =>
    intro b hb
    rcases hb with _ | hb
    · exact ⟨_, List.mem_cons_self _ _, hq⟩
    · obtain ⟨a, ha, hqa⟩ := ih _ (by assumption)
      exact ⟨a, List.mem_cons_of_mem _ ha, hqa⟩

/-- Transfer a `Pairwise` relation across a `Forall₂`. -/
theorem pairwise_of_forall₂ {α β : Type} {Q : α → β → Prop} {R : α → α → Prop}
    {S : β → β → Prop} :
    ∀ {l : List α} {out : List β}, List.Forall₂ Q l out → List.Pairwise R l →
      (∀ {x e y f}, Q x e → Q y f → R x y → S e f) → List.Pairwise S out := by
  intro l out h
  induction h with
  | nil => intro _ _; exact List.Pairwise.nil
  | cons hq hf ih =>
    intro hp htr
    cases hp with
    | cons hr hp =>
      refine List.Pairwise.cons ?_ (ih hp htr)
      intro f hf2
      obtain ⟨y, hy, hqy⟩ := forall₂_mem_right hf f hf2
      exact htr hq hqy (hr y hy)

/-! ### C9: absent picks source -/

/-- C9: when the input picks source file is absent, the exporter writes
exactly the text `[]` to `picks.json` and raises no exception. -/
theorem picks_absent_writes_empty : exportPicksText none = Except.ok "[]" := rfl

/-! ### C1: the sanitizer's fixed key set -/

/-- C1: whenever `sanitize_pick` returns, its output dict has exactly the
fixed projection keys `market_id, question, direction, bin_edge,
bin_win_rate, bin_n, market_implied, n_signals, score, hours_to_resolve`,
in that order, and never any key outside that set — whatever extra internal
fields the input pick carries. -/
theorem sanitize_pick_fixed_keys (p out : JVal) (h : sanitizePick p = Except.ok out) :
    ∃ kvs, out = JVal.obj kvs ∧ kvs.map Prod.fst =
      ["market_id", "question", "direction", "bin_edge", "bin_win_rate", "bin_n",
       "market_implied", "n_signals", "score", "hours_to_resolve"] := by
  unfold sanitizePick at h
  rw [bind_ok_iff] at h
  obtain ⟨signalsV, _, h⟩ := h
  rw [bind_ok_iff] at h
  obtain ⟨dir, _, h⟩ := h
  rw [bind_ok_iff] at h
  obtain ⟨sigs, _, h⟩ := h
  rw [bind_ok_iff] at h
  obtain ⟨binSigO, _, h⟩ := h
  cases binSigO with
  | none => cases h
  | some binSig =>
    rw [bind_ok_iff] at h
    obtain ⟨marketId, _, h⟩ := h
    rw [bind_ok_iff] at h
    obtain ⟨question, _, h⟩ := h
    rw [bind_ok_iff] at h
    obtain ⟨edge, _, h⟩ := h
    rw [bind_ok_iff] at h
    obtain ⟨winRate, _, h⟩ := h
    rw [bind_ok_iff] at h
    obtain ⟨detail, _, h⟩ := h
    rw [bind_ok_iff] at h
    obtain ⟨binN, _, h⟩ := h
    rw [bind_ok_iff] at h
    obtain ⟨marketImplied, _, h⟩ := h
    rw [bind_ok_iff] at h
    obtain ⟨nSignals, _, h⟩ := h
    rw [bind_ok_iff] at h
    obtain ⟨score, _, h⟩ := h
    rw [bind_ok_iff] at h
    obtain ⟨hours, _, h⟩ := h
    cases h
    exact ⟨_, rfl, rfl⟩

/-- A concrete pick carrying an extra internal field. -/
def samplePick : JVal :=
  .obj [("market_id", .num 1), ("question", .str "q"), ("direction", .str "up"),
    ("market_implied", .num 1), ("n_signals", .num 1), ("score", .num 1),
    ("hours_to_resolve", .num 2), ("model_internals", .str "secret"),
    ("signals", .arr [.obj [("source", .str "bin"), ("direction", .str "up"),
      ("edge", .num 1)]])]

/-- The sanitized form of `samplePick`. -/
def samplePickOut : JVal :=
  .obj [("market_id", .num 1), ("question", .str "q"), ("direction", .str "up"),
    ("bin_edge", .num 1), ("bin_win_rate", .null), ("bin_n", .null),
    ("market_implied", .num 1), ("n_signals", .num 1), ("score", .num 1),
    ("hours_to_resolve", .num 2)]

/-- Witness for C1 at a concrete pick with an extra internal field. -/
theorem sanitize_pick_fixed_keys_w :
    ∃ kvs, samplePickOut = JVal.obj kvs ∧ kvs.map Prod.fst =
      ["market_id", "question", "direction", "bin_edge", "bin_win_rate", "bin_n",
       "market_implied", "n_signals", "score", "hours_to_resolve"] :=
  sanitize_pick_fixed_keys samplePick samplePickOut (by rfl)

/-! ### C3 and C4 counterexamples -/

/-- C3 counterexample: a pick record missing its expected keys (here the
`direction` key) makes the picks pipeline raise a KeyError instead of
silently excluding the record. -/
theorem picks_missing_key_raises :
    exportPicksOut (some [JVal.obj []]) = Except.error "KeyError" := by rfl

/-- C4 counterexample: on the detail string `"n=,"` the regex matches a
comma-only run and `int("")` raises a ValueError, so the extractor does
not return `none` but raises. -/
theorem sample_size_comma_raises :
    parseSampleSize (.str "n=,") = Except.error "ValueError" := by rfl

/-! ### C6: the alignment filter returns the first aligned bin signal -/

/-- On a dict, `.get` returns the total lookup. -/
theorem pyGet_of_isObj {s : JVal} (hs : s.isObj = true) (k : String) :
    pyGet s k = Except.ok (mGet s k) := by
  cases s <;> first | rfl | simp [JVal.isObj] at hs

/-- C6: over a sequence of signal dicts, the alignment filter returns the
first signal in original order whose `source` is `"bin"` and whose
`direction` equals the target direction, and `none` when no signal
matches. -/
theorem aligned_bin_first (signals : List JVal) (dir : JVal)
    (h : ∀ s ∈ signals, s.isObj = true) :
    (getAlignedBinSignal signals dir = .ok none ∧ ∀ s ∈ signals, ¬ isAlignedSig s dir) ∨
    (∃ s pre post, getAlignedBinSignal signals dir = .ok (some s) ∧
      signals = pre ++ s :: post ∧ isAlignedSig s dir ∧ ∀ x ∈ pre, ¬ isAlignedSig x dir) := by
  induction signals with
  | nil => exact Or.inl ⟨rfl, by simp⟩
  | cons s rest ih =>
    have hs : s.isObj = true := h s (List.mem_cons_self s rest)
    have hstep : getAlignedBinSignal (s :: rest) dir =
        (if mGet s "source" = .str "bin" then
          (if mGet s "direction" = dir then .ok (some s)
           else getAlignedBinSignal rest dir)
         else getAlignedBinSignal rest dir) := by
      rw [getAlignedBinSignal, pyGet_of_isObj hs]
      by_cases h1 : mGet s "source" = JVal.str "bin"
      · rw [pyGet_of_isObj hs]
        simp [h1, Bind.bind, Except.bind]
      · simp [h1, Bind.bind, Except.bind]
    by_cases h1 : mGet s "source" = JVal.str "bin" ∧ mGet s "direction" = dir
    · refine Or.inr ⟨s, [], rest, ?_, rfl, h1, by simp⟩
      rw [hstep, if_pos h1.1, if_pos h1.2]
    · have hrec : getAlignedBinSignal (s :: rest) dir = getAlignedBinSignal rest dir := by
        rw [hstep]
        by_cases ha : mGet s "source" = JVal.str "bin"
        · have hb : ¬ mGet s "direction" = dir := fun hb => h1 ⟨ha, hb⟩
          rw [if_pos ha, if_neg hb]
        · rw [if_neg ha]
      have hns : ¬ isAlignedSig s dir := h1
      rcases ih (fun x hx => h x (List.mem_cons_of_mem s hx)) with ⟨hn, hall⟩ | ⟨t, pre, post, ht, heq, htal, hpre⟩
      · refine Or.inl ⟨by rw [hrec]; exact hn, ?_⟩
        intro x hx
        rcases List.mem_cons.1 hx with rfl | hx
        · exact hns
        · exact hall x hx
      · refine Or.inr ⟨t, s :: pre, post, by rw [hrec]; exact ht, by rw [heq]; rfl, htal, ?_⟩
        intro x hx
        rcases List.mem_cons.1 hx with rfl | hx
        · exact hns
        · exact hpre x hx

/-! ### C2: membership in the published picks -/

/-- A successful `.get` identifies the total lookup. -/
theorem pyGet_ok_eq {s : JVal} {k : String} {v : JVal} (h : pyGet s k = Except.ok v) :
    mGet s k = v := by
  cases s <;> simp [pyGet] at h <;> simp [mGet, h]

/-- A successful `[k]` indexing identifies the total lookup. -/
theorem pyIndex_ok_eq {s : JVal} {k : String} {v : JVal} (h : pyIndex s k = Except.ok v) :
    mGet s k = v := by
  cases s <;> simp [pyIndex] at h
  rename_i kvs
  rcases hd : dictGet kvs k with _ | w <;> rw [hd] at h <;> simp at h
  simp [mGet, hd, h]

/-- An aligned signal is necessarily a dict. -/
theorem isAligned_isObj {s dir : JVal} (h : isAlignedSig s dir) : s.isObj = true := by
  cases s <;> first | rfl | (exact absurd h.1 (by simp [mGet]))

/-- When the alignment scan completes with `none`, no signal in the
sequence is aligned. -/
theorem align_ok_none_not_aligned {dir : JVal} :
    ∀ {sigs : List JVal}, getAlignedBinSignal sigs dir = .ok none →
      ∀ s ∈ sigs, ¬ isAlignedSig s dir := by
  intro sigs
  induction sigs with
  | nil => intro _ s hs; cases hs
  | cons s rest ih =>
    intro h x hx
    rw [getAlignedBinSignal] at h
    rcases hps : pyGet s "source" with e | src <;> rw [hps] at h
    · simp [Bind.bind, Except.bind] at h
    · simp only [Bind.bind, Except.bind] at h
      by_cases hb : src = JVal.str "bin"
      · rw [if_pos hb] at h
        rcases hpd : pyGet s "direction" with e | d <;> rw [hpd] at h
        · simp [Except.bind] at h
        · simp only [Except.bind] at h
          by_cases hdd : d = dir
          · rw [if_pos hdd] at h
            simp at h
          · rw [if_neg hdd] at h
            rcases List.mem_cons.1 hx with rfl | hx
            · intro ha
              exact hdd ((pyGet_ok_eq hpd) ▸ ha.2)
            · exact ih h x hx
      · rw [if_neg hb] at h
        rcases List.mem_cons.1 hx with rfl | hx
        · intro ha
          exact hb ((pyGet_ok_eq hps) ▸ ha.1)
        · exact ih h x hx

/-- When the alignment scan returns a signal, that signal is in the
sequence and aligned. -/
theorem align_ok_some_aligned {dir t : JVal} :
    ∀ {sigs : List JVal}, getAlignedBinSignal sigs dir = .ok (some t) →
      t ∈ sigs ∧ isAlignedSig t dir := by
  intro sigs
  induction sigs with
  | nil => intro h; cases h
  | cons s rest ih =>
    intro h
    rw [getAlignedBinSignal] at h
    rcases hps : pyGet s "source" with e | src <;> rw [hps] at h
    · simp [Bind.bind, Except.bind] at h
    · simp only [Bind.bind, Except.bind] at h
      by_cases hb : src = JVal.str "bin"
      · rw [if_pos hb] at h
        rcases hpd : pyGet s "direction" with e | d <;> rw [hpd] at h
        · simp [Except.bind] at h
        · simp only [Except.bind] at h
          by_cases hdd : d = dir
          · rw [if_pos hdd] at h
            simp only [Except.ok.injEq, Option.some.injEq] at h
            subst h
            refine ⟨List.mem_cons_self _ _, ?_, ?_⟩
            · rw [pyGet_ok_eq hps]
              exact hb
            · rw [pyGet_ok_eq hpd]
              exact hdd
          · rw [if_neg hdd] at h
            obtain ⟨hm, ha⟩ := ih h
            exact ⟨List.mem_cons_of_mem s hm, ha⟩
      · rw [if_neg hb] at h
        obtain ⟨hm, ha⟩ := ih h
        exact ⟨List.mem_cons_of_mem s hm, ha⟩

/-- Whether a pick passes the publication filter. -/
def alignB (p : JVal) : Bool :=
  match alignOf p with
  | .ok (some _) => true
  | _ => false

/-- The selection loop is the list `filter` by the alignment test. -/
theorem selectAligned_eq_filter :
    ∀ {picks sel : List JVal}, selectAligned picks = .ok sel → sel = picks.filter alignB := by
  intro picks
  induction picks with
  | nil => intro sel h; cases h; rfl
  | cons p ps ih =>
    intro sel h
    rw [selectAligned] at h
    rw [bind_ok_iff] at h
    obtain ⟨ro, hro, h⟩ := h
    rw [bind_ok_iff] at h
    obtain ⟨rest, hrest, h⟩ := h
    cases ro with
    | some r =>
      simp only [Except.ok.injEq] at h
      subst h
      rw [List.filter_cons_of_pos (by simp [alignB, hro])]
      rw [ih hrest]
    | none =>
      simp only [Except.ok.injEq] at h
      subst h
      rw [List.filter_cons_of_neg (by simp [alignB, hro])]
      exact ih hrest

/-- Every pick in a successfully filtered list has a completed alignment
test. -/
theorem selectAligned_all_ok :
    ∀ {picks sel : List JVal}, selectAligned picks = .ok sel →
      ∀ p ∈ picks, ∃ ro, alignOf p = .ok ro := by
  intro picks
  induction picks with
  | nil => intro sel _ p hp; cases hp
  | cons q ps ih =>
    intro sel h p hp
    rw [selectAligned] at h
    rw [bind_ok_iff] at h
    obtain ⟨ro, hro, h⟩ := h
    rw [bind_ok_iff] at h
    obtain ⟨rest, hrest, _⟩ := h
    rcases List.mem_cons.1 hp with rfl | hp
    · exact ⟨ro, hro⟩
    · exact ih hrest p hp

/-- A successful alignment test on a pick means exactly that the pick has
an aligned bin signal among its signals. -/
theorem alignOf_some_iff_hasAligned {p : JVal} {ro : Option JVal}
    (h : alignOf p = .ok ro) : (∃ r, ro = some r) ↔ hasAlignedBin p := by
  unfold alignOf at h
  rw [bind_ok_iff] at h
  obtain ⟨signalsV, hsv, h⟩ := h
  rw [bind_ok_iff] at h
  obtain ⟨dir, hdir, h⟩ := h
  rw [bind_ok_iff] at h
  obtain ⟨sigs, hsigs, halign⟩ := h
  obtain ⟨kvs, rfl⟩ : ∃ kvs, p = .obj kvs := by
    cases p <;> simp [pyGetD] at hsv
    exact ⟨_, rfl⟩
  simp only [pyGetD, Except.ok.injEq] at hsv
  have hdir2 : mGet (.obj kvs) "direction" = dir := pyIndex_ok_eq hdir
  constructor
  · rintro ⟨r, rfl⟩
    obtain ⟨hmem, halr⟩ := align_ok_some_aligned halign
    have hobj : r.isObj = true := isAligned_isObj halr
    unfold hasAlignedBin
    rcases hd : dictGet kvs "signals" with _ | w
    · rw [hd] at hsv
      simp at hsv
      rw [← hsv] at hsigs
      simp [pyIter] at hsigs
      simp [hsigs] at hmem
    · rw [hd] at hsv
      simp at hsv
      rw [← hsv] at hsigs
      have hmg : mGet (.obj kvs) "signals" = w := by simp [mGet, hd]
      rw [hmg]
      cases w with
      | arr xs =>
        simp only [pyIter, Except.ok.injEq] at hsigs
        rw [hdir2]
        exact ⟨r, hsigs ▸ hmem, halr⟩
      | obj kvs2 =>
        simp only [pyIter, Except.ok.injEq] at hsigs
        rw [← hsigs] at hmem
        obtain ⟨kv, _, hkv⟩ := List.mem_map.1 hmem
        rw [← hkv] at hobj
        cases hobj
      | str s2 =>
        simp only [pyIter, Except.ok.injEq] at hsigs
        rw [← hsigs] at hmem
        obtain ⟨c, _, hkv⟩ := List.mem_map.1 hmem
        rw [← hkv] at hobj
        cases hobj
      | null => simp [pyIter] at hsigs
      | num q => simp [pyIter] at hsigs
      | bool b => simp [pyIter] at hsigs
  · intro hab
    unfold hasAlignedBin at hab
    rcases hmg : mGet (.obj kvs) "signals" with _ | _ | _ | _ | xs | _ <;> rw [hmg] at hab <;>
      try cases hab
    rename_i s hs
    obtain ⟨hsx, hsal⟩ := hs
    have hd : dictGet kvs "signals" = some (.arr xs) := by
      simp only [mGet] at hmg
      rcases hdd : dictGet kvs "signals" with _ | w
      · rw [hdd] at hmg
        simp at hmg
      · rw [hdd] at hmg
        simp at hmg
        rw [hmg]
    rw [hd] at hsv
    simp at hsv
    rw [← hsv] at hsigs
    simp only [pyIter, Except.ok.injEq] at hsigs
    cases ro with
    | some r => exact ⟨r, rfl⟩
    | none =>
      exfalso
      rw [hdir2] at hsal
      exact align_ok_none_not_aligned halign s (hsigs ▸ hsx) hsal

/-- Members of the left list of a `Forall₂` map to members of the right. -/
theorem forall₂_mem_left {α β : Type} {Q : α → β → Prop} :
    ∀ {l : List α} {out : List β}, List.Forall₂ Q l out → ∀ a ∈ l, ∃ b ∈ out, Q a b := by
  intro l out h
  induction h with
  | nil => intro a ha; cases ha
  | cons hq _ ih =>
    intro a ha
    rcases ha with _ | ha
    · exact ⟨_, List.mem_cons_self _ _, hq⟩
    · obtain ⟨b, hb, hqb⟩ := ih _ (by assumption)
      exact ⟨b, List.mem_cons_of_mem _ hb, hqb⟩

/-- Decompose a successful `Except.map`. -/
theorem except_map_ok_iff {α β : Type} (f : α → β) (x : Except String α) (b : β) :
    (Except.map f x = Except.ok b) ↔ ∃ a, x = Except.ok a ∧ b = f a := by
  cases x <;> simp [Except.map]
  exact comm

/-- Structure of a successful picks-export run. -/
theorem exportPicksOut_struct {picks out : List JVal}
    (h : exportPicksOut (some picks) = .ok out) :
    ∃ sel keyed, selectAligned picks = .ok sel ∧
      sel.mapM (fun p => (hkeyE p).map (fun k => (k, p))) = .ok keyed ∧
      ((keyed.insertionSort hkeyRel).map (fun kp => kp.2)).mapM sanitizePick
        = .ok out := by
  unfold exportPicksOut at h
  rw [bind_ok_iff] at h
  obtain ⟨sel, hsel, h⟩ := h
  rw [bind_ok_iff] at h
  obtain ⟨sorted, hsort, h⟩ := h
  unfold sortByHours at hsort
  rw [bind_ok_iff] at hsort
  obtain ⟨keyed, hkeyed, hsort⟩ := hsort
  simp only [Except.ok.injEq] at hsort
  subst hsort
  exact ⟨sel, keyed, hsel, hkeyed, h⟩

/-- A successful keying pass projects back onto the original picks, and
every computed key is the pick's hours key. -/
theorem keyed_props {sel : List JVal} {keyed : List (Option ℚ × JVal)}
    (h : sel.mapM (fun p => (hkeyE p).map (fun k => (k, p))) = .ok keyed) :
    keyed.map Prod.snd = sel ∧ ∀ kp ∈ keyed, hkeyE kp.2 = .ok kp.1 := by
  have hf := (mapM_ok_iff _ sel keyed).1 h
  clear h
  constructor
  · induction hf with
    | nil => rfl
    | cons hq _ ih =>
      obtain ⟨k, _, hkp⟩ := (except_map_ok_iff _ _ _).1 hq
      simp only [List.map_cons, ih, hkp]
  · intro kp hkp
    obtain ⟨p, _, hq⟩ := forall₂_mem_right hf kp hkp
    obtain ⟨k, hk, hkpe⟩ := (except_map_ok_iff _ _ _).1 hq
    rw [hkpe]
    exact hk

/-- A successful sanitization presupposes an aligned bin signal. -/
theorem sanitize_ok_align {p e : JVal} (h : sanitizePick p = .ok e) :
    ∃ bs, alignOf p = .ok (some bs) := by
  unfold sanitizePick at h
  rw [bind_ok_iff] at h
  obtain ⟨signalsV, h1, h⟩ := h
  rw [bind_ok_iff] at h
  obtain ⟨dir, h2, h⟩ := h
  rw [bind_ok_iff] at h
  obtain ⟨sigs, h3, h⟩ := h
  rw [bind_ok_iff] at h
  obtain ⟨binSigO, h4, h⟩ := h
  cases binSigO with
  | none => cases h
  | some bs =>
    refine ⟨bs, ?_⟩
    simp only [alignOf, h1, h2, h3, Bind.bind, Except.bind]
    exact h4

/-- C2: a pick in the input appears in the `picks.json` output (as its
sanitized form) if and only if it has at least one signal with source
`"bin"` whose direction matches the pick's direction. -/
theorem export_picks_membership {picks out : List JVal}
    (h : exportPicksOut (some picks) = .ok out) {p : JVal} (hp : p ∈ picks) :
    hasAlignedBin p ↔ ∃ e, sanitizePick p = .ok e ∧ e ∈ out := by
  obtain ⟨sel, keyed, hsel, hkeyed, hmap⟩ := exportPicksOut_struct h
  have hkp := keyed_props hkeyed
  constructor
  · intro hab
    obtain ⟨ro, hro⟩ := selectAligned_all_ok hsel p hp
    obtain ⟨r, hr⟩ := (alignOf_some_iff_hasAligned hro).2 hab
    subst hr
    have hpb : alignB p = true := by
      simp [alignB, hro]
    have hmem_sel : p ∈ sel := by
      rw [selectAligned_eq_filter hsel]
      exact List.mem_filter.2 ⟨hp, hpb⟩
    have hmem_keyed : p ∈ keyed.map Prod.snd := by
      rw [hkp.1]
      exact hmem_sel
    obtain ⟨kp, hkpmem, hkp2⟩ := List.mem_map.1 hmem_keyed
    have hkpms : kp ∈ keyed.insertionSort hkeyRel :=
      (List.mem_insertionSort hkeyRel).2 hkpmem
    have hmem_sorted : p ∈ (keyed.insertionSort hkeyRel).map (fun kp => kp.2) :=
      List.mem_map.2 ⟨kp, hkpms, hkp2⟩
    have hforall := (mapM_ok_iff sanitizePick _ out).1 hmap
    obtain ⟨e, hem, hq⟩ := forall₂_mem_left hforall _ hmem_sorted
    exact ⟨e, hq, hem⟩
  · rintro ⟨e, he, _⟩
    obtain ⟨bs, hbs⟩ := sanitize_ok_align he
    exact (alignOf_some_iff_hasAligned hbs).1 ⟨bs, rfl⟩

/-- Witness for C2: a one-pick input whose pick is published. -/
theorem export_picks_membership_w :
    hasAlignedBin samplePick ↔
      ∃ e, sanitizePick samplePick = .ok e ∧ e ∈ [samplePickOut] :=
  @export_picks_membership [samplePick] [samplePickOut] (by rfl) samplePick (by simp)

/-! ### C3 (amended): per-record malformation handling -/

/-- Malformed serialized signal data — falsy (`NULL` or empty) or
unparseable `signals_json` — is treated as "no bin signal". -/
theorem getAlignedBinFromJson_malformed {sj dir : JVal}
    (h : pyTruthy sj = false ∨ ∃ s, sj = .str s ∧ jsonLoads s = none) :
    getAlignedBinFromJson sj dir = .ok none := by
  unfold getAlignedBinFromJson
  rcases h with h | ⟨s, rfl, hl⟩
  · simp [h, pyIter, getAlignedBinSignal, Bind.bind, Except.bind]
  · by_cases hts : pyTruthy (.str s)
    · simp [hts, hl]
    · simp [eq_false_of_ne_true hts, pyIter, getAlignedBinSignal, Bind.bind, Except.bind]

/-- Dropping a row whose alignment test yields `none` leaves the
aligned-row loop unchanged. -/
theorem alignedRowsE_skip {r : TrackedRow}
    (h : getAlignedBinFromJson r.signals_json r.direction = .ok none) :
    ∀ pre post, alignedRowsE (pre ++ r :: post) = alignedRowsE (pre ++ post) := by
  intro pre
  induction pre with
  | nil =>
    intro post
    simp only [List.nil_append]
    rw [alignedRowsE]
    simp [h, Bind.bind, Except.bind]
  | cons x xs ih =>
    intro post
    simp only [List.cons_append]
    rw [alignedRowsE, alignedRowsE]
    rw [ih post]

/-- Dropping a pick whose alignment test yields `none` leaves the
publication filter unchanged. -/
theorem selectAligned_skip {p : JVal} (h : alignOf p = .ok none) :
    ∀ pre post, selectAligned (pre ++ p :: post) = selectAligned (pre ++ post) := by
  intro pre
  induction pre with
  | nil =>
    intro post
    simp only [List.nil_append]
    rw [selectAligned]
    simp only [h, Bind.bind, Except.bind]
    cases selectAligned post <;> rfl
  | cons x xs ih =>
    intro post
    simp only [List.cons_append]
    rw [selectAligned, selectAligned]
    rw [ih post]

/-- The portfolio output depends on the rows only through the aligned-row
loop. -/
theorem exportPortfolio_congr {l1 l2 : List TrackedRow}
    (h : alignedRowsE l1 = alignedRowsE l2) :
    exportPortfolio (some l1) = exportPortfolio (some l2) := by
  simp only [exportPortfolio]
  rw [h]

/-- The picks output depends on the picks only through the publication
filter. -/
theorem exportPicksOut_congr {l1 l2 : List JVal}
    (h : selectAligned l1 = selectAligned l2) :
    exportPicksOut (some l1) = exportPicksOut (some l2) := by
  simp only [exportPicksOut]
  rw [h]

/-- C3 (amended): malformed serialized signal data — a falsy (`NULL` or
empty) or unparseable `signals_json` — is treated as "no bin signal" in
the store path, and any record whose alignment test completes with no
aligned signal is silently excluded, leaving the rest of the output
unchanged, in both the store path and the picks path.  (As the
counterexample shows, a record missing expected keys is not swallowed but
raises.) -/
theorem per_record_malformation_swallowed :
    (∀ sj dir : JVal, (pyTruthy sj = false ∨ ∃ s, sj = .str s ∧ jsonLoads s = none) →
        getAlignedBinFromJson sj dir = .ok none) ∧
    (∀ (r : TrackedRow) (pre post : List TrackedRow),
        getAlignedBinFromJson r.signals_json r.direction = .ok none →
        exportPortfolio (some (pre ++ r :: post)) = exportPortfolio (some (pre ++ post))) ∧
    (∀ (p : JVal) (pre post : List JVal), alignOf p = .ok none →
        exportPicksOut (some (pre ++ p :: post)) = exportPicksOut (some (pre ++ post))) :=
  ⟨fun _ _ h => getAlignedBinFromJson_malformed h,
   fun _ pre post h => exportPortfolio_congr (alignedRowsE_skip h pre post),
   fun _ pre post h => exportPicksOut_congr (selectAligned_skip h pre post)⟩

/-- A tracked row with unparseable serialized signal data. -/
def badRow : TrackedRow :=
  ⟨.str "m1", .str "q", .str "up", .num 1, .num 1, .str "2024-01-01",
    .str "pending", .null, .null, .str "not json"⟩

/-- A pick whose only signal is model-sourced (no aligned bin signal). -/
def modelOnlyPick : JVal :=
  .obj [("direction", .str "up"),
    ("signals", .arr [.obj [("source", .str "model"), ("direction", .str "up")]])]

/-- Witness for C3 (amended) at concrete malformed records. -/
theorem per_record_malformation_swallowed_w :
    getAlignedBinFromJson (.str "not json") (.str "up") = .ok none ∧
    exportPortfolio (some [badRow]) = exportPortfolio (some []) ∧
    exportPicksOut (some [modelOnlyPick]) = exportPicksOut (some []) :=
  ⟨per_record_malformation_swallowed.1 (.str "not json") (.str "up")
      (Or.inr ⟨"not json", rfl, by rfl⟩),
   per_record_malformation_swallowed.2.1 badRow [] [] (by rfl),
   per_record_malformation_swallowed.2.2 modelOnlyPick [] [] (by rfl)⟩

/-! ### C5 and C10: ordering of the published picks -/

/-- A sanitized entry records the pick's `hours_to_resolve` value and
always carries the field. -/
theorem sanitize_entry_hours {p e : JVal} (h : sanitizePick p = Except.ok e) :
    hasHours e = true ∧ ∃ hv, pyIndex p "hours_to_resolve" = .ok hv ∧
      mGet e "hours_to_resolve" = hv := by
  unfold sanitizePick at h
  rw [bind_ok_iff] at h
  obtain ⟨signalsV, _, h⟩ := h
  rw [bind_ok_iff] at h
  obtain ⟨dir, _, h⟩ := h
  rw [bind_ok_iff] at h
  obtain ⟨sigs, _, h⟩ := h
  rw [bind_ok_iff] at h
  obtain ⟨binSigO, _, h⟩ := h
  cases binSigO with
  | none => cases h
  | some binSig =>
    rw [bind_ok_iff] at h
    obtain ⟨marketId, _, h⟩ := h
    rw [bind_ok_iff] at h
    obtain ⟨question, _, h⟩ := h
    rw [bind_ok_iff] at h
    obtain ⟨edge, _, h⟩ := h
    rw [bind_ok_iff] at h
    obtain ⟨winRate, _, h⟩ := h
    rw [bind_ok_iff] at h
    obtain ⟨detail, _, h⟩ := h
    rw [bind_ok_iff] at h
    obtain ⟨binN, _, h⟩ := h
    rw [bind_ok_iff] at h
    obtain ⟨marketImplied, _, h⟩ := h
    rw [bind_ok_iff] at h
    obtain ⟨nSignals, _, h⟩ := h
    rw [bind_ok_iff] at h
    obtain ⟨score, _, h⟩ := h
    rw [bind_ok_iff] at h
    obtain ⟨hours, hhours, h⟩ := h
    cases h
    refine ⟨rfl, hours, hhours, ?_⟩
    simp [mGet, dictGet]

/-- A successful hours-key computation identifies the total key reading. -/
theorem hkeyE_ok_hkeyT {p : JVal} {k : Option ℚ} (h : hkeyE p = .ok k) : hkeyT p = k := by
  cases p <;> simp [hkeyE] at h
  rename_i kvs
  rcases hd : dictGet kvs "hours_to_resolve" with _ | w <;> rw [hd] at h
  · simp at h
    simp [hkeyT, mGet, hd, ← h]
  · cases w <;> simp at h <;> simp [hkeyT, mGet, hd, ← h]

/-- On a sanitized pick that sorted with key `k`, the entry's hours value
is exactly `k`. -/
theorem sanitize_hours_key {p e : JVal} {k : Option ℚ}
    (hs : sanitizePick p = Except.ok e) (hk : hkeyE p = .ok k) :
    hkeyT e = k ∧ hasHours e = true := by
  obtain ⟨hhas, hv, hvok, hvm⟩ := sanitize_entry_hours hs
  have hmg : mGet p "hours_to_resolve" = hv := pyIndex_ok_eq hvok
  obtain ⟨kvs, rfl⟩ : ∃ kvs, p = .obj kvs := by
    cases p <;> simp [pyIndex] at hvok
    exact ⟨_, rfl⟩
  have hd : dictGet kvs "hours_to_resolve" = some hv := by
    simp only [pyIndex] at hvok
    rcases hdd : dictGet kvs "hours_to_resolve" with _ | w <;> rw [hdd] at hvok
    · cases hvok
    · simp at hvok
      rw [hvok]
  refine ⟨?_, hhas⟩
  simp only [hkeyE, hd] at hk
  cases hv <;> simp at hk <;> simp [hkeyT, hvm, ← hk]

/-- Strengthen a `Forall₂` with a fact holding of all left members. -/
theorem forall₂_and_left {α β : Type} {Q : α → β → Prop} {P : α → Prop} :
    ∀ {l : List α} {out : List β}, List.Forall₂ Q l out → (∀ x ∈ l, P x) →
      List.Forall₂ (fun x e => Q x e ∧ P x) l out := by
  intro l out h
  induction h with
  | nil => intro _; exact List.Forall₂.nil
  | cons hq _ ih =>
    intro hp
    exact List.Forall₂.cons ⟨hq, hp _ (List.mem_cons_self _ _)⟩
      (ih fun x hx => hp x (List.mem_cons_of_mem _ hx))

/-- C5: the published `picks.json` list is sorted non-decreasing by
`hours_to_resolve` (missing hours ordering as infinity), and no published
entry missing the field precedes one that has it. -/
theorem export_picks_sorted {picks out : List JVal}
    (h : exportPicksOut (some picks) = .ok out) :
    List.Pairwise (fun a b => hkeyLE (hkeyT a) (hkeyT b) = true) out ∧
    List.Pairwise (fun a b => hasHours a = false → hasHours b = false) out := by
  obtain ⟨sel, keyed, hsel, hkeyed, hmap⟩ := exportPicksOut_struct h
  have hkp := keyed_props hkeyed
  have hsorted : List.Pairwise hkeyRel (keyed.insertionSort hkeyRel) :=
    List.sorted_insertionSort hkeyRel keyed
  have hf : List.Forall₂ (fun q e => sanitizePick q = Except.ok e)
      ((keyed.insertionSort hkeyRel).map (fun kp => kp.2)) out :=
    (mapM_ok_iff _ _ _).1 hmap
  have hf2 : List.Forall₂ (fun kp e => sanitizePick kp.2 = Except.ok e)
      (keyed.insertionSort hkeyRel) out := by
    rw [List.forall₂_map_left_iff] at hf
    exact hf
  have hkeys : ∀ kp ∈ keyed.insertionSort hkeyRel, hkeyE kp.2 = .ok kp.1 := fun kp hm =>
    hkp.2 kp ((List.mem_insertionSort hkeyRel).1 hm)
  have hf3 := forall₂_and_left hf2 hkeys
  constructor
  · refine pairwise_of_forall₂ hf3 hsorted ?_
    intro x e y f hx hy hr
    obtain ⟨hxe, hxk⟩ := sanitize_hours_key hx.1 hx.2
    obtain ⟨hye, hyk⟩ := sanitize_hours_key hy.1 hy.2
    rw [hxe, hye]
    exact hr
  · have hall : ∀ e ∈ out, hasHours e = true := by
      intro e he
      obtain ⟨kp, hkm, hq⟩ := forall₂_mem_right hf3 e he
      exact (sanitize_hours_key hq.1 hq.2).2
    refine List.pairwise_of_forall_mem_list ?_
    intro a ha b hb hfa
    rw [hall a ha] at hfa
    cases hfa

/-- Two concrete publishable picks in key-descending input order. -/
def pickLate : JVal :=
  .obj [("market_id", .num 1), ("question", .str "a"), ("direction", .str "up"),
    ("market_implied", .num 1), ("n_signals", .num 1), ("score", .num 1),
    ("hours_to_resolve", .num 5),
    ("signals", .arr [.obj [("source", .str "bin"), ("direction", .str "up"),
      ("edge", .num 1)]])]

/-- A second pick resolving sooner than `pickLate`. -/
def pickSoon : JVal :=
  .obj [("market_id", .num 2), ("question", .str "b"), ("direction", .str "up"),
    ("market_implied", .num 1), ("n_signals", .num 1), ("score", .num 1),
    ("hours_to_resolve", .num 2),
    ("signals", .arr [.obj [("source", .str "bin"), ("direction", .str "up"),
      ("edge", .num 1)]])]

/-- The sanitized form of `pickSoon`. -/
def pickSoonOut : JVal :=
  .obj [("market_id", .num 2), ("question", .str "b"), ("direction", .str "up"),
    ("bin_edge", .num 1), ("bin_win_rate", .null), ("bin_n", .null),
    ("market_implied", .num 1), ("n_signals", .num 1), ("score", .num 1),
    ("hours_to_resolve", .num 2)]

/-- The sanitized form of `pickLate`. -/
def pickLateOut : JVal :=
  .obj [("market_id", .num 1), ("question", .str "a"), ("direction", .str "up"),
    ("bin_edge", .num 1), ("bin_win_rate", .null), ("bin_n", .null),
    ("market_implied", .num 1), ("n_signals", .num 1), ("score", .num 1),
    ("hours_to_resolve", .num 5)]

/-- Witness for C5 at a two-pick input given out of order. -/
theorem export_picks_sorted_w :
    List.Pairwise (fun a b => hkeyLE (hkeyT a) (hkeyT b) = true) [pickSoonOut, pickLateOut] ∧
    List.Pairwise (fun a b => hasHours a = false → hasHours b = false)
      [pickSoonOut, pickLateOut] :=
  @export_picks_sorted [pickLate, pickSoon] [pickSoonOut, pickLateOut] (by rfl)

/-- The hours order is reflexive. -/
theorem hkeyLE_refl : ∀ k : Option ℚ, hkeyLE k k = true := by
  intro k
  cases k <;> simp [hkeyLE]

/-- Insertion sort does not reorder the elements selected by a predicate
whose selected elements are all mutually related (stability, phrased as a
filter identity). -/
theorem filter_insertionSort_eq {α : Type} (r : α → α → Prop) [DecidableRel r]
    (p : α → Bool) (l : List α) (hp : ∀ a b, p a = true → p b = true → r a b) :
    (l.insertionSort r).filter p = l.filter p := by
  have h1 : List.Sublist (l.filter p) l := List.filter_sublist l
  have hpair : (l.filter p).Pairwise r :=
    List.pairwise_of_forall_mem_list fun a ha b hb =>
      hp a b (List.mem_filter.1 ha).2 (List.mem_filter.1 hb).2
  have h2 : List.Sublist (l.filter p) (l.insertionSort r) :=
    List.sublist_insertionSort hpair h1
  have h3 : List.Sublist (l.filter p) ((l.insertionSort r).filter p) := by
    have hh := h2.filter p
    simpa [List.filter_filter] using hh
  have h4 : ((l.insertionSort r).filter p).length = (l.filter p).length :=
    ((List.perm_insertionSort r l).filter p).length_eq
  exact (h3.eq_of_length h4.symm).symm

/-- A `Forall₂` restricts to related filters. -/
theorem forall₂_filter {α β : Type} {Q : α → β → Prop} {p : α → Bool} {q : β → Bool} :
    ∀ {l : List α} {out : List β}, List.Forall₂ Q l out → (∀ x e, Q x e → p x = q e) →
      List.Forall₂ Q (l.filter p) (out.filter q) := by
  intro l out h
  induction h with
  | nil => intro _; exact List.Forall₂.nil
  | cons hq htail ih =>
    intro hpq
    rename_i x e l2 out2
    by_cases hpx : p x = true
    · rw [List.filter_cons_of_pos hpx, List.filter_cons_of_pos (by rw [← hpq x e hq]; exact hpx)]
      exact List.Forall₂.cons hq (ih hpq)
    · rw [List.filter_cons_of_neg hpx, List.filter_cons_of_neg (by rw [← hpq x e hq]; exact hpx)]
      exact ih hpq

/-- C10: among published picks with the same `hours_to_resolve` key, the
output preserves the input's relative order: for every key `k`, the
`k`-keyed slice of the output is exactly the sanitized `k`-keyed slice of
the selected picks, in input order. -/
theorem export_picks_stable {picks out : List JVal}
    (h : exportPicksOut (some picks) = .ok out) (k : Option ℚ) :
    ∃ sel, selectAligned picks = .ok sel ∧ sel = picks.filter alignB ∧
      (sel.filter (fun p => hkeyT p = k)).mapM sanitizePick
        = .ok (out.filter (fun e => hkeyT e = k)) := by
  obtain ⟨sel, keyed, hsel, hkeyed, hmap⟩ := exportPicksOut_struct h
  have hkp := keyed_props hkeyed
  refine ⟨sel, hsel, selectAligned_eq_filter hsel, ?_⟩
  have hf : List.Forall₂ (fun q e => sanitizePick q = Except.ok e)
      ((keyed.insertionSort hkeyRel).map (fun kp => kp.2)) out :=
    (mapM_ok_iff _ _ _).1 hmap
  have hf2 : List.Forall₂ (fun kp e => sanitizePick kp.2 = Except.ok e)
      (keyed.insertionSort hkeyRel) out := by
    rw [List.forall₂_map_left_iff] at hf
    exact hf
  have hkeys : ∀ kp ∈ keyed.insertionSort hkeyRel, hkeyE kp.2 = .ok kp.1 := fun kp hm =>
    hkp.2 kp ((List.mem_insertionSort hkeyRel).1 hm)
  have hf3 := forall₂_and_left hf2 hkeys
  have hff : List.Forall₂
      (fun x e => sanitizePick x.2 = Except.ok e ∧ hkeyE x.2 = Except.ok x.1)
      ((keyed.insertionSort hkeyRel).filter (fun kp => kp.1 = k))
      (out.filter (fun e => hkeyT e = k)) := by
    refine forall₂_filter hf3 ?_
    intro kp e hq
    have hk2 := (sanitize_hours_key hq.1 hq.2).1
    rw [hk2]
  have hstab : (keyed.insertionSort hkeyRel).filter (fun kp => kp.1 = k)
      = keyed.filter (fun kp => kp.1 = k) := by
    refine filter_insertionSort_eq hkeyRel _ keyed ?_
    intro a b ha hb
    rw [decide_eq_true_eq] at ha hb
    unfold hkeyRel
    rw [ha, hb]
    exact hkeyLE_refl k
  rw [hstab] at hff
  have hkf : sel.filter (fun p => hkeyT p = k)
      = (keyed.filter (fun kp => kp.1 = k)).map Prod.snd := by
    rw [← hkp.1, List.filter_map]
    congr 1
    refine (List.filter_congr ?_).symm
    intro kp hm
    have hkk := hkeyE_ok_hkeyT (hkp.2 kp hm)
    simp only [Function.comp]
    rw [hkk]
  rw [hkf]
  refine (mapM_ok_iff _ _ _).2 ?_
  refine (List.forall₂_map_left_iff).2 ?_
  exact List.Forall₂.imp (fun a b hq => hq.1) hff

/-- Two publishable picks tied on `hours_to_resolve`. -/
def pickTieA : JVal :=
  .obj [("market_id", .num 1), ("question", .str "a"), ("direction", .str "up"),
    ("market_implied", .num 1), ("n_signals", .num 1), ("score", .num 1),
    ("hours_to_resolve", .num 3),
    ("signals", .arr [.obj [("source", .str "bin"), ("direction", .str "up"),
      ("edge", .num 1)]])]

/-- A second pick with the same hours key as `pickTieA`. -/
def pickTieB : JVal :=
  .obj [("market_id", .num 2), ("question", .str "b"), ("direction", .str "up"),
    ("market_implied", .num 1), ("n_signals", .num 1), ("score", .num 1),
    ("hours_to_resolve", .num 3),
    ("signals", .arr [.obj [("source", .str "bin"), ("direction", .str "up"),
      ("edge", .num 1)]])]

/-- The sanitized form of `pickTieA`. -/
def pickTieAOut : JVal :=
  .obj [("market_id", .num 1), ("question", .str "a"), ("direction", .str "up"),
    ("bin_edge", .num 1), ("bin_win_rate", .null), ("bin_n", .null),
    ("market_implied", .num 1), ("n_signals", .num 1), ("score", .num 1),
    ("hours_to_resolve", .num 3)]

/-- The sanitized form of `pickTieB`. -/
def pickTieBOut : JVal :=
  .obj [("market_id", .num 2), ("question", .str "b"), ("direction", .str "up"),
    ("bin_edge", .num 1), ("bin_win_rate", .null), ("bin_n", .null),
    ("market_implied", .num 1), ("n_signals", .num 1), ("score", .num 1),
    ("hours_to_resolve", .num 3)]

/-- Witness for C10 at a two-pick input tied on the hours key. -/
theorem export_picks_stable_w :
    ∃ sel, selectAligned [pickTieA, pickTieB] = .ok sel ∧
      sel = [pickTieA, pickTieB].filter alignB ∧
      (sel.filter (fun p => hkeyT p = some 3)).mapM sanitizePick
        = .ok ([pickTieAOut, pickTieBOut].filter (fun e => hkeyT e = some 3)) :=
  @export_picks_stable [pickTieA, pickTieB] [pickTieAOut, pickTieBOut] (by rfl) (some 3)

/-! ### C7 and C8: portfolio aggregates -/

/-- A bind of a pure value reduces. -/
theorem pure_bind_except {α β : Type} (a : α) (f : α → Except String β) :
    (pure a : Except String α) >>= f = f a := rfl

/-- Structure of a successful portfolio-export run. -/
theorem exportPortfolio_struct {rows : List TrackedRow} {port : Portfolio}
    (h : exportPortfolio (some rows) = .ok port) :
    ∃ aligned totalPnl avgEdge sortedRes,
      alignedRowsE rows = .ok aligned ∧
      sumPnl aligned = .ok totalPnl ∧
      sortResolved (aligned.filter (fun a =>
        a.row.status = JVal.str "won" ∨ a.row.status = JVal.str "lost")) = .ok sortedRes ∧
      (aligned.isEmpty = true → avgEdge = none) ∧
      (aligned.isEmpty = false → ∃ s, sumEdges aligned = .ok s ∧
          avgEdge = some (pyRound (qdiv s (aligned.length : ℚ)) 4)) ∧
      port.summary.avg_bin_edge = avgEdge ∧
      port.recent_resolutions = (sortedRes.take 50).map projResolution := by
  simp only [exportPortfolio] at h
  rw [bind_ok_iff] at h
  obtain ⟨aligned, haligned, h⟩ := h
  rw [bind_ok_iff] at h
  obtain ⟨totalPnl, hpnl, h⟩ := h
  cases hae : aligned.isEmpty with
  | true =>
    rw [if_pos hae] at h
    rw [pure_bind_except] at h
    rw [bind_ok_iff] at h
    obtain ⟨sortedRes, hsort, h⟩ := h
    cases h
    refine ⟨aligned, totalPnl, none, sortedRes, haligned, hpnl, hsort,
      fun _ => rfl, ?_, rfl, rfl⟩
    intro hf
    rw [hae] at hf
    cases hf
  | false =>
    rw [if_neg (by simp [hae])] at h
    rw [bind_ok_iff] at h
    obtain ⟨s, hs, h⟩ := h
    rw [pure_bind_except] at h
    rw [bind_ok_iff] at h
    obtain ⟨sortedRes, hsort, h⟩ := h
    cases h
    refine ⟨aligned, totalPnl, some (pyRound (qdiv s (aligned.length : ℚ)) 4), sortedRes,
      haligned, hpnl, hsort, ?_, fun _ => ⟨s, hs, rfl⟩, rfl, rfl⟩
    intro ht
    rw [hae] at ht
    cases ht

/-- A successful aligned-row loop carries exactly the aligned subset's
bin edges. -/
theorem alignedRowsE_edges :
    ∀ {rows : List TrackedRow} {aligned : List ARow}, alignedRowsE rows = .ok aligned →
      aligned.map (fun a => a.bin_edge) = alignedBinEdgesSpec rows := by
  intro rows
  induction rows with
  | nil =>
    intro aligned h
    cases h
    rfl
  | cons r rs ih =>
    intro aligned h
    rw [alignedRowsE] at h
    rw [bind_ok_iff] at h
    obtain ⟨bo, hbo, h⟩ := h
    cases bo with
    | none =>
      rw [alignedBinEdgesSpec, List.filterMap_cons]
      simp only [hbo]
      exact ih h
    | some bs =>
      rw [bind_ok_iff] at h
      obtain ⟨edge, hedge, h⟩ := h
      rw [bind_ok_iff] at h
      obtain ⟨detail, hdetail, h⟩ := h
      rw [bind_ok_iff] at h
      obtain ⟨n, hn, h⟩ := h
      rw [bind_ok_iff] at h
      obtain ⟨rest, hrest, h⟩ := h
      cases h
      rw [alignedBinEdgesSpec, List.filterMap_cons]
      simp only [hbo]
      rw [List.map_cons]
      rw [pyIndex_ok_eq hedge]
      rw [ih hrest]
      rfl

/-- A successful edge sum is the numeric sum of the edges. -/
theorem sumEdges_val :
    ∀ {l : List ARow} {s : ℚ}, sumEdges l = .ok s →
      s = (l.map (fun a => qOf a.bin_edge)).sum := by
  intro l
  induction l with
  | nil =>
    intro s h
    cases h
    rfl
  | cons a rest ih =>
    intro s h
    rw [sumEdges] at h
    rw [bind_ok_iff] at h
    obtain ⟨acc, hacc, h⟩ := h
    cases hbe : a.bin_edge <;> rw [hbe] at h
    case null => cases h
    case str => cases h
    case arr => cases h
    case obj => cases h
    case bool b =>
      simp only [Except.ok.injEq] at h
      rw [List.map_cons, List.sum_cons, hbe, ← h, qadd_eq, ih hacc]
      rfl
    case num q =>
      simp only [Except.ok.injEq] at h
      rw [List.map_cons, List.sum_cons, hbe, ← h, qadd_eq, ih hacc]
      rfl

/-- C7: the summary's `avg_bin_edge` is the arithmetic mean of `bin_edge`
over exactly the aligned subset of the tracked rows, rounded to four
decimal places, and `null` when that subset is empty. -/
theorem portfolio_avg_bin_edge {rows : List TrackedRow} {port : Portfolio}
    (h : exportPortfolio (some rows) = .ok port) :
    port.summary.avg_bin_edge =
      if (alignedBinEdgesSpec rows).isEmpty then none
      else some (pyRound ((((alignedBinEdgesSpec rows).map qOf).sum)
        / ((alignedBinEdgesSpec rows).length : ℚ)) 4) := by
  obtain ⟨aligned, totalPnl, avgEdge, sortedRes, haligned, _, _, hempty, hnonempty, havg, _⟩ :=
    exportPortfolio_struct h
  have hedges := alignedRowsE_edges haligned
  have hlen : (alignedBinEdgesSpec rows).length = aligned.length := by
    rw [← hedges, List.length_map]
  have hisem : (alignedBinEdgesSpec rows).isEmpty = aligned.isEmpty := by
    rw [← hedges]
    cases aligned <;> rfl
  rw [havg, hisem]
  cases hae : aligned.isEmpty with
  | true =>
    rw [if_pos rfl]
    exact hempty hae
  | false =>
    rw [if_neg (by simp)]
    obtain ⟨s, hs, havgv⟩ := hnonempty hae
    rw [havgv, hlen]
    have hsum : ((alignedBinEdgesSpec rows).map qOf).sum = s := by
      rw [← hedges, List.map_map]
      exact (sumEdges_val hs).symm
    rw [hsum, qdiv_eq]

/-- Two tracked rows: one aligned with edge 0.07, one aligned with
edge 0.05. -/
def rowEdge7 : TrackedRow :=
  ⟨.str "m1", .str "q1", .str "up", .num 1, .num 1, .str "2024-01-01",
    .str "pending", .null, .null,
    .str "[\x7b\"source\": \"bin\", \"direction\": \"up\", \"edge\": 0.07\x7d]"⟩

/-- A second aligned tracked row with edge 0.05, resolved as won. -/
def rowEdge5 : TrackedRow :=
  ⟨.str "m2", .str "q2", .str "down", .num 1, .num 1, .str "2024-01-02",
    .str "won", .num 2, .str "2024-02-02",
    .str "[\x7b\"source\": \"bin\", \"direction\": \"down\", \"edge\": 0.05\x7d]"⟩

/-- A non-aligned tracked row (model signal only). -/
def rowModelOnly : TrackedRow :=
  ⟨.str "m3", .str "q3", .str "up", .num 1, .num 1, .str "2024-01-03",
    .str "won", .num 3, .str "2024-02-03",
    .str "[\x7b\"source\": \"model\", \"direction\": \"up\", \"edge\": 0.5\x7d]"⟩

/-- The portfolio exported from `[rowEdge7, rowEdge5, rowModelOnly]`. -/
def samplePortfolio : Portfolio :=
  ⟨⟨1, 1, 0, 1, 2, some (qdiv 3 50)⟩,
   [.obj [("market_id", .str "m1"), ("question", .str "q1"), ("direction", .str "up"),
      ("order_price", .num 1), ("mid_price", .num 1), ("first_seen", .str "2024-01-01"),
      ("bin_edge", .num (qdiv 7 100)), ("bin_n", .null)]],
   [.obj [("market_id", .str "m2"), ("question", .str "q2"), ("direction", .str "down"),
      ("status", .str "won"), ("pnl", .num 2), ("resolved_at", .str "2024-02-02"),
      ("bin_edge", .num (qdiv 1 20)), ("bin_n", .null)]]⟩

/-- Witness for C7 at a store with two aligned rows and one model-only
row. -/
theorem portfolio_avg_bin_edge_w :
    samplePortfolio.summary.avg_bin_edge =
      if (alignedBinEdgesSpec [rowEdge7, rowEdge5, rowModelOnly]).isEmpty then none
      else some (pyRound
        ((((alignedBinEdgesSpec [rowEdge7, rowEdge5, rowModelOnly]).map qOf).sum)
          / ((alignedBinEdgesSpec [rowEdge7, rowEdge5, rowModelOnly]).length : ℚ)) 4) :=
  portfolio_avg_bin_edge (by rfl)

/-- Structure of a successful resolutions sort. -/
theorem sortResolved_struct {l : List ARow} {sorted : List ARow}
    (h : sortResolved l = .ok sorted) :
    ∃ keyed, l.mapM (fun a => (resKeyE a).map (fun k => (k, a))) = .ok keyed ∧
      sorted = (keyed.insertionSort resRel).map (fun ka => ka.2) := by
  unfold sortResolved at h
  rw [bind_ok_iff] at h
  obtain ⟨keyed, hkeyed, h⟩ := h
  simp only [Except.ok.injEq] at h
  exact ⟨keyed, hkeyed, h.symm⟩

/-- A successful resolution keying pass projects back onto the rows, and
every computed key is the row's resolution key. -/
theorem resKeyed_props {l : List ARow} {keyed : List (String × ARow)}
    (h : l.mapM (fun a => (resKeyE a).map (fun k => (k, a))) = .ok keyed) :
    keyed.map Prod.snd = l ∧ ∀ ka ∈ keyed, resKeyE ka.2 = .ok ka.1 := by
  have hf := (mapM_ok_iff _ l keyed).1 h
  clear h
  constructor
  · induction hf with
    | nil => rfl
    | cons hq _ ih =>
      obtain ⟨k, _, hkp⟩ := (except_map_ok_iff _ _ _).1 hq
      simp only [List.map_cons, ih, hkp]
  · intro ka hka
    obtain ⟨a, _, hq⟩ := forall₂_mem_right hf ka hka
    obtain ⟨k, hk, hkae⟩ := (except_map_ok_iff _ _ _).1 hq
    rw [hkae]
    exact hk

/-- A successful resolution-key computation identifies the total key
reading. -/
theorem resKeyE_ok_rKeyT {a : ARow} {k : String} (h : resKeyE a = .ok k) :
    rKeyT a.row.resolved_at = k := by
  unfold resKeyE at h
  by_cases ht : pyTruthy a.row.resolved_at
  · rw [if_pos ht] at h
    cases hv : a.row.resolved_at <;> rw [hv] at h <;> simp at h <;> simp [rKeyT, hv, h]
  · rw [if_neg ht] at h
    simp only [Except.ok.injEq] at h
    rw [← h]
    cases hv : a.row.resolved_at <;> rw [hv] at ht <;> simp [pyTruthy] at ht <;> simp [rKeyT, ht]

/-- Every row of a successful aligned-row loop comes from the input rows
and passes the alignment filter. -/
theorem alignedRowsE_rows :
    ∀ {rows : List TrackedRow} {aligned : List ARow}, alignedRowsE rows = .ok aligned →
      ∀ a ∈ aligned, a.row ∈ rows ∧ alignedRowSpec a.row := by
  intro rows
  induction rows with
  | nil =>
    intro aligned h a ha
    cases h
    cases ha
  | cons r rs ih =>
    intro aligned h a ha
    rw [alignedRowsE] at h
    rw [bind_ok_iff] at h
    obtain ⟨bo, hbo, h⟩ := h
    cases bo with
    | none =>
      obtain ⟨hm, hs⟩ := ih h a ha
      exact ⟨List.mem_cons_of_mem r hm, hs⟩
    | some bs =>
      rw [bind_ok_iff] at h
      obtain ⟨edge, hedge, h⟩ := h
      rw [bind_ok_iff] at h
      obtain ⟨detail, hdetail, h⟩ := h
      rw [bind_ok_iff] at h
      obtain ⟨n, hn, h⟩ := h
      rw [bind_ok_iff] at h
      obtain ⟨rest, hrest, h⟩ := h
      cases h
      rcases List.mem_cons.1 ha with rfl | ha
      · exact ⟨List.mem_cons_self r rs, bs, hbo⟩
      · obtain ⟨hm, hs⟩ := ih hrest a ha
        exact ⟨List.mem_cons_of_mem r hm, hs⟩

/-- Mapping a function over a list gives an elementwise image. -/
theorem forall₂_map_self {α β : Type} (f : α → β) :
    ∀ l : List α, List.Forall₂ (fun a b => b = f a) l (l.map f) := by
  intro l
  induction l with
  | nil => exact List.Forall₂.nil
  | cons a l ih => exact List.Forall₂.cons rfl ih

/-- The resolution projection's `resolved_at` field. -/
theorem projResolution_resolved_at (a : ARow) :
    mGet (projResolution a) "resolved_at" = a.row.resolved_at := by
  simp [projResolution, mGet, dictGet, List.find?]

/-- The resolution projection's `status` field. -/
theorem projResolution_status (a : ARow) :
    mGet (projResolution a) "status" = a.row.status := by
  simp [projResolution, mGet, dictGet, List.find?]

/-- C8: the `recent_resolutions` list has at most 50 entries, contains
only aligned rows with status `won` or `lost`, and is ordered descending
by `resolved_at`, null or missing `resolved_at` ordering as the empty
string. -/
theorem portfolio_recent_resolutions {rows : List TrackedRow} {port : Portfolio}
    (h : exportPortfolio (some rows) = .ok port) :
    port.recent_resolutions.length ≤ 50 ∧
    (∀ e ∈ port.recent_resolutions, ∃ r ∈ rows, alignedRowSpec r ∧
      (r.status = .str "won" ∨ r.status = .str "lost") ∧
      mGet e "resolved_at" = r.resolved_at ∧ mGet e "status" = r.status) ∧
    List.Pairwise (fun a b =>
      strLE (rKeyT (mGet b "resolved_at")) (rKeyT (mGet a "resolved_at")) = true)
      port.recent_resolutions := by
  obtain ⟨aligned, totalPnl, avgEdge, sortedRes, haligned, _, hsort, _, _, _, hrec⟩ :=
    exportPortfolio_struct h
  obtain ⟨keyed, hkeyed, hsorted_eq⟩ := sortResolved_struct hsort
  have hkp := resKeyed_props hkeyed
  have hLsorted : List.Pairwise resRel (keyed.insertionSort resRel) :=
    List.sorted_insertionSort resRel keyed
  have hrec2 : port.recent_resolutions =
      ((keyed.insertionSort resRel).take 50).map (fun ka => projResolution ka.2) := by
    rw [hrec, hsorted_eq, ← List.map_take, List.map_map]
    rfl
  refine ⟨?_, ?_, ?_⟩
  · rw [hrec2, List.length_map]
    exact le_trans (List.length_take_le 50 _) (le_refl 50)
  · intro e he
    rw [hrec2] at he
    obtain ⟨ka, hka, hkae⟩ := List.mem_map.1 he
    have hka2 : ka ∈ keyed.insertionSort resRel := List.mem_of_mem_take hka
    have hka3 : ka ∈ keyed := (List.mem_insertionSort resRel).1 hka2
    have hmem : ka.2 ∈ aligned.filter (fun a =>
        a.row.status = JVal.str "won" ∨ a.row.status = JVal.str "lost") := by
      rw [← hkp.1]
      exact List.mem_map.2 ⟨ka, hka3, rfl⟩
    have hstat := List.of_mem_filter hmem
    rw [decide_eq_true_eq] at hstat
    have hal := alignedRowsE_rows haligned ka.2 (List.mem_of_mem_filter hmem)
    refine ⟨ka.2.row, hal.1, hal.2, hstat, ?_, ?_⟩
    · rw [← hkae]
      exact projResolution_resolved_at ka.2
    · rw [← hkae]
      exact projResolution_status ka.2
  · rw [hrec2]
    have hPtake : List.Pairwise resRel ((keyed.insertionSort resRel).take 50) :=
      List.Pairwise.sublist (List.take_sublist 50 _) hLsorted
    have hf := forall₂_map_self (fun ka => projResolution ka.2)
      ((keyed.insertionSort resRel).take 50)
    have hkeys : ∀ ka ∈ (keyed.insertionSort resRel).take 50, resKeyE ka.2 = .ok ka.1 := by
      intro ka hka
      exact hkp.2 ka ((List.mem_insertionSort resRel).1 (List.mem_of_mem_take hka))
    have hf2 := forall₂_and_left hf hkeys
    refine pairwise_of_forall₂ hf2 hPtake ?_
    intro x e y f hx hy hr
    rw [hx.1, hy.1, projResolution_resolved_at, projResolution_resolved_at]
    rw [resKeyE_ok_rKeyT hx.2, resKeyE_ok_rKeyT hy.2]
    exact hr

/-- Witness for C8 at a store with two aligned rows and one model-only
row. -/
theorem portfolio_recent_resolutions_w :
    samplePortfolio.recent_resolutions.length ≤ 50 ∧
    (∀ e ∈ samplePortfolio.recent_resolutions,
      ∃ r ∈ [rowEdge7, rowEdge5, rowModelOnly], alignedRowSpec r ∧
        (r.status = .str "won" ∨ r.status = .str "lost") ∧
        mGet e "resolved_at" = r.resolved_at ∧ mGet e "status" = r.status) ∧
    List.Pairwise (fun a b =>
      strLE (rKeyT (mGet b "resolved_at")) (rKeyT (mGet a "resolved_at")) = true)
      samplePortfolio.recent_resolutions :=
  portfolio_recent_resolutions (by rfl)

/-- A concrete signal list: a non-matching model signal before an aligned
bin signal. -/
def sampleSignals : List JVal :=
  [.obj [("source", .str "model"), ("direction", .str "up"), ("edge", .num 2)],
   .obj [("source", .str "bin"), ("direction", .str "down"), ("edge", .num 3)],
   .obj [("source", .str "bin"), ("direction", .str "up"), ("edge", .num 1)]]

/-! ### C4: the sample-size extractor -/

/-- The string the extractor actually scans: the detail string itself, the
empty string for an absent (null) detail. -/
def detailStr : JVal → String
  | .str s => s
  | _ => ""

/-- A successful regex match is a nonempty digit-or-comma run preceded by
`n=` somewhere in the input. -/
theorem findN_sound : ∀ cs run : List Char, findN cs = some run →
    run ≠ [] ∧ run.all isDC = true ∧ ∃ pre post, cs = pre ++ 'n' :: '=' :: (run ++ post) := by
  intro cs
  induction cs with
  | nil => intro run hr; simp [findN] at hr
  | cons c rest ih =>
    intro run hr
    cases rest with
    | nil => simp [findN] at hr
    | cons c2 rest2 =>
      rw [findN] at hr
      by_cases hc : c = 'n'
      · rw [if_pos hc] at hr
        by_cases h2 : c2 = '='
        · rw [if_pos h2] at hr
          by_cases hrun : (rest2.takeWhile isDC).isEmpty
          · simp only [hrun, if_true] at hr
            obtain ⟨hne, hall, pre, post, heq⟩ := ih run hr
            exact ⟨hne, hall, c :: pre, post, by rw [heq]; rfl⟩
          · rw [Bool.not_eq_true] at hrun
            simp only [hrun] at hr
            simp only [Bool.false_eq_true, if_false, Option.some.injEq] at hr
            subst hc
            subst h2
            refine ⟨?_, by rw [hr.symm]; exact List.all_takeWhile, [], rest2.dropWhile isDC, ?_⟩
            · intro he
              rw [he] at hr
              rw [hr] at hrun
              simp at hrun
            · simp [hr.symm]
        · rw [if_neg h2] at hr
          obtain ⟨hne, hall, pre, post, heq⟩ := ih run hr
          exact ⟨hne, hall, c :: pre, post, by rw [heq]; rfl⟩
      · rw [if_neg hc] at hr
        obtain ⟨hne, hall, pre, post, heq⟩ := ih run hr
        exact ⟨hne, hall, c :: pre, post, by rw [heq]; rfl⟩

/-- When the regex finds no match, no occurrence of `n=` in the input is
followed by a digit-or-comma character. -/
theorem findN_complete : ∀ cs : List Char, findN cs = none →
    ∀ pre c post, cs = pre ++ 'n' :: '=' :: c :: post → isDC c = false := by
  intro cs
  induction cs with
  | nil => intro _ pre c post heq; simp at heq
  | cons c0 rest ih =>
    intro hnone pre c post heq
    cases pre with
    | nil =>
      simp only [List.nil_append, List.cons.injEq] at heq
      obtain ⟨hc0, hrest⟩ := heq
      subst hc0
      subst hrest
      by_cases hdc : isDC c
      · exfalso
        rw [findN, if_pos rfl, if_pos rfl] at hnone
        have hne : ((c :: post).takeWhile isDC).isEmpty = false := by
          rw [List.takeWhile_cons_of_pos hdc]
          rfl
        simp only [hne, Bool.false_eq_true, if_false] at hnone
        cases hnone
      · exact eq_false_of_ne_true hdc
    | cons p0 pre2 =>
      simp only [List.cons_append, List.cons.injEq] at heq
      obtain ⟨hp0, hrest⟩ := heq
      have hrn : findN rest = none := by
        rcases hr : rest with _ | ⟨c2, rest2⟩
        · rw [hr] at hrest
          cases pre2 <;> simp at hrest
        · rw [hr] at hnone
          rw [findN] at hnone
          by_cases hc : c0 = 'n'
          · rw [if_pos hc] at hnone
            by_cases h2 : c2 = '='
            · rw [if_pos h2] at hnone
              by_cases hrun : (rest2.takeWhile isDC).isEmpty
              · simpa only [hrun, if_true] using hnone
              · rw [Bool.not_eq_true] at hrun
                simp only [hrun, Bool.false_eq_true, if_false] at hnone
                cases hnone
            · rwa [if_neg h2] at hnone
          · rwa [if_neg hc] at hnone
      exact ih hrn pre2 c post hrest

/-- C4 (amended): for every detail string (or absent value), when the input
contains no `n=` followed by a digit-or-comma character the extractor
returns `none`; when the regex matches, the matched run is a nonempty
digit-or-comma run following `n=`, the extractor returns the integer
formed by the run's digits when the run contains at least one digit, and
raises ValueError when the run consists of commas only. -/
theorem sample_size_characterization (d : JVal) (hd : d = .null ∨ ∃ s, d = .str s) :
    (findN (detailStr d).toList = none →
        parseSampleSize d = .ok none ∧
        ∀ pre c post, (detailStr d).toList = pre ++ 'n' :: '=' :: c :: post → isDC c = false) ∧
    (∀ run, findN (detailStr d).toList = some run →
        run ≠ [] ∧ run.all isDC = true ∧
        (∃ pre post, (detailStr d).toList = pre ++ 'n' :: '=' :: (run ++ post)) ∧
        (run.any Char.isDigit = true →
            parseSampleSize d = .ok (some (natOfDigits (run.filter (fun c => c ≠ ','))))) ∧
        (run.any Char.isDigit = false → parseSampleSize d = .error "ValueError")) := by
  have hps : parseSampleSize d =
      (match findN (detailStr d).toList with
       | none => .ok none
       | some run =>
         let ds := run.filter (fun c => c ≠ ',')
         if ds.isEmpty then .error "ValueError" else .ok (some (natOfDigits ds))) := by
    rcases hd with rfl | ⟨s, rfl⟩
    · rfl
    · by_cases hs : s = ""
      · subst hs; rfl
      · have : pyTruthy (JVal.str s) = true := by simpa [pyTruthy] using hs
        simp [parseSampleSize, detailStr, this]
  constructor
  · intro hn
    refine ⟨by rw [hps, hn], findN_complete _ hn⟩
  · intro run hr
    obtain ⟨hne, hall, hdec⟩ := findN_sound _ run hr
    refine ⟨hne, hall, hdec, ?_, ?_⟩
    · intro hdig
      rw [hps, hr]
      rw [List.any_eq_true] at hdig
      obtain ⟨c, hc, hcd⟩ := hdig
      have hcmem : c ∈ run.filter (fun x => x ≠ ',') := by
        rw [List.mem_filter]
        refine ⟨hc, ?_⟩
        simp only [ne_eq, decide_eq_true_eq]
        rintro rfl
        exact absurd hcd (by decide)
      have hfe : (run.filter (fun x => x ≠ ',')).isEmpty = false := by
        rcases hm : run.filter (fun x => x ≠ ',') with _ | ⟨x, xs⟩
        · rw [hm] at hcmem
          cases hcmem
        · rfl
      simp only [hfe, Bool.false_eq_true, if_false]
    · intro hnod
      rw [hps, hr]
      have hnil : run.filter (fun x => x ≠ ',') = [] := by
        rw [List.filter_eq_nil_iff]
        intro a ha
        have hdc : isDC a = true := by
          rw [List.all_eq_true] at hall
          exact hall a ha
        have hnd : a.isDigit = false := by
          have := List.any_eq_false.1 hnod a ha
          exact eq_false_of_ne_true this
        simp only [isDC, hnd, Bool.false_or, decide_eq_true_eq] at hdc
        simp [hdc]
      have hfe : (run.filter (fun x => x ≠ ',')).isEmpty = true := by
        rw [hnil]
        rfl
      simp only [hfe, if_true]

/-- Witness for C4 at the detail string `"n=44,835"`. -/
theorem sample_size_characterization_w :
    parseSampleSize (.str "n=44,835") = .ok (some 44835) := by
  have h := (sample_size_characterization (.str "n=44,835") (Or.inr ⟨_, rfl⟩)).2
    ['4', '4', ',', '8', '3', '5'] (by rfl)
  have hv := h.2.2.2.1 (by rfl)
  simpa using hv

/-- Witness for C6 at a concrete signal sequence. -/
theorem aligned_bin_first_w :
    (getAlignedBinSignal sampleSignals (.str "up") = .ok none ∧
      ∀ s ∈ sampleSignals, ¬ isAlignedSig s (.str "up")) ∨
    (∃ s pre post, getAlignedBinSignal sampleSignals (.str "up") = .ok (some s) ∧
      sampleSignals = pre ++ s :: post ∧ isAlignedSig s (.str "up") ∧
      ∀ x ∈ pre, ¬ isAlignedSig x (.str "up")) :=
  aligned_bin_first sampleSignals (.str "up") (by decide)
